import Mathlib

/-!
Shallow embedding of the core of `jianpu2ly.py` (a compiler from numbered
Jianpu music notation to LilyPond), together with proofs checking the
natural-language specification against the code.

Conventions of the embedding:
* Python `Fraction` values (bar positions, durations) become `ℚ`.
* Python `int` values that are always non-negative become `ℕ`;
  `int(x / y)` on non-negative operands is modelled as `ℕ` floor division
  (Python truncates the float `x / y` towards zero, which agrees with floor
  for the non-negative quotients that occur here).
* Python `%` on `Fraction` is modelled by `pymod` (floor-convention modulus).
* Fatal `errExit` / `scoreError` calls become `Except String` errors.
* The regex-based text rewriting passes (`convert_ties_to_slurs`,
  `reformat_slurs`, `collapse_tied_notes`) are modelled on token lists, one
  token per lexical unit matched by the source regexes; `re.sub`'s
  left-to-right, non-overlapping, no-rescan-of-replacement semantics is
  mirrored by structural recursion over the token list.
-/

namespace JianpuLy

/-- Python's `%` on `Fraction`/`int` with a positive modulus: the
representative of `a` modulo `m` in `[0, m)` (floor convention). -/
def pymod (a m : ℚ) : ℚ := a - m * ⌊a / m⌋

deriving instance DecidableEq for Except

/-- True iff an `Except` computation aborted (models a fatal `errExit`). -/
def isErr {α : Type} : Except String α → Bool
  | .error _ => true
  | .ok _ => false

/-! ### `addOctaves` (source lines 741-766)

`addOctaves(octave1, octave2)` first normalises `>`/`<` in `octave2` to
`'`/`,`, then walks over `octave1`: each up-mark (`'` or `>`) cancels a
trailing `,` of `octave2` if one is present and otherwise appends `'`;
every other character acts as a down-mark symmetrically. -/

/-- One character of the `octave2.replace(">", "'").replace("<", ",")`
normalisation. -/
def normOctChar (c : Char) : Char :=
  if c = '>' then '\'' else if c = '<' then ',' else c

/-- The `while octave1:` loop of `addOctaves`, on exploded strings. -/
def addOctGo : List Char → List Char → List Char
  | [], o2 => o2
  | c :: rest, o2 =>
    if c = '\'' ∨ c = '>' then
      addOctGo rest (if ',' ∈ o2 then o2.dropLast else o2 ++ ['\''])
    else
      addOctGo rest (if '\'' ∈ o2 then o2.dropLast else o2 ++ [','])

/-- `addOctaves` from the source: add two octave-mark strings. -/
def addOctaves (octave1 octave2 : String) : String :=
  ⟨addOctGo octave1.toList (octave2.toList.map normOctChar)⟩

/-- Value of one octave mark: `'` and `>` count +1, `,` and `<` count -1
(the interpretation used throughout the source). -/
def octMarkVal (c : Char) : ℤ :=
  if c = '\'' ∨ c = '>' then 1 else if c = ',' ∨ c = '<' then -1 else 0

/-- Net octave offset of a mark string. -/
def netOct (l : List Char) : ℤ :=
  (l.map octMarkVal).sum

/-- A mark list is homogeneous if all marks are up-marks or all are
down-marks (possibly empty), in normalised form. -/
def HomogOct (l : List Char) : Prop :=
  (∀ c ∈ l, c = '\'') ∨ (∀ c ∈ l, c = ',')

/-! ### The `NoteheadMarkup` timing/layout state machine

Fields mirror the mutable attributes set in `initOneScore` (lines 786-803)
that the claims are about.  Output-only attributes (`defines_done`,
`notesHad`, `unicode_approx`, flags such as `onePage`) are omitted. -/

/-- The `inBeamGroup` attribute takes the Python values `0`, `1`,
`"restHack"`. -/
inductive BeamSt
  | off
  | on
  | restHack
deriving DecidableEq, Repr

/-- Accidental memory: Python dict from octave string to a 7-entry list of
accidental strings (`current_accidentals`), as an association list. -/
abbrev AccMem := List (String × List String)

/-- Dict read with the blank default established by line 1082-1083. -/
def memGet : AccMem → String → ℕ → String
  | [], _, _ => ""
  | (k, l) :: rest, oct, idx => if k = oct then l.getD idx "" else memGet rest oct idx

/-- Does the dict have a key (Python `octave in current_accidentals`)? -/
def memHasKey : AccMem → String → Bool
  | [], _ => false
  | (k, _) :: rest, oct => if k = oct then true else memHasKey rest oct

/-- Line 1082-1083: `if octave not in current_accidentals:
current_accidentals[octave] = [""] * 7`. -/
def ensureKey (mem : AccMem) (oct : String) : AccMem :=
  if memHasKey mem oct then mem else mem ++ [(oct, List.replicate 7 "")]

/-- Dict write `current_accidentals[octave][idx] = accidental`. -/
def memSet : AccMem → String → ℕ → String → AccMem
  | [], oct, idx, acc => [(oct, (List.replicate 7 "").set idx acc)]
  | (k, l) :: rest, oct, idx, acc =>
    if k = oct then (k, l.set idx acc) :: rest else (k, l) :: memSet rest oct idx acc

/-- Lines 1138-1144: the per-figure accidental loop of `toMarkup`.  For each
figure in `'1'..'7'` it records whether a new accidental must be displayed
(`need_space_for_accidental`) and writes the accidental into the memory. -/
def accLoop (oct acc : String) : List Char → Bool × AccMem → Bool × AccMem
  | [], s => s
  | f :: rest, (need, mem) =>
    if '1' ≤ f ∧ f ≤ '7' then
      let need2 := if acc = memGet mem oct (f.toNat - '1'.toNat) then need else true
      accLoop oct acc rest (need2, memSet mem oct (f.toNat - '1'.toNat) acc)
    else
      accLoop oct acc rest (need, mem)

/-- The state-machine attributes of `NoteheadMarkup` relevant to timing,
beaming and accidentals. -/
structure NMState where
  barLength : ℕ := 64
  beatLength : ℕ := 16
  barPos : ℚ := 0
  startBarPos : ℚ := 0
  barNo : ℕ := 1
  tuplet : ℕ × ℕ := (1, 1)
  inBeamGroup : BeamSt := .off
  lastNBeams : ℕ := 0
  keepLength : Bool := false
  current_accidentals : AccMem := []
deriving DecidableEq, Repr

/-- `initOneScore` (lines 786-803): the fresh per-score state. -/
def initOneScore : NMState := {}

/-- `setTime` (lines 826-838): `barLength = int(64 * num / denom)` and
compound-time beat length. -/
def setTime (st : NMState) (num denom : ℕ) : NMState :=
  { st with
    barLength := 64 * num / denom
    beatLength := if 4 < denom ∧ num % 3 = 0 then 24 else 16 }

/-- `setAnac` (lines 840-854): set an anacrusis (pickup bar) position. -/
def setAnac (st : NMState) (denom : ℕ) (dotted : Bool) : Except String NMState :=
  let bp0 : ℚ := (st.barLength : ℚ) - 64 / denom
  let bp : ℚ := if dotted then bp0 - 64 / denom / 2 else bp0
  if bp < 0 then .error "Anacrusis is longer than bar"
  else .ok { st with barPos := bp, startBarPos := bp }

/-- `endScore` (lines 806-824): end-of-score bar completeness validation.
`sloppy` models the `j2ly_sloppy_bars` environment variable. -/
def endScore (sloppy : Bool) (st : NMState) : Except String Unit :=
  if st.barPos = st.startBarPos then .ok ()
  else if sloppy then .ok ()
  else if st.startBarPos ≠ 0 ∧ st.barPos = 0 then
    .error "Score should end with a bar making up for the anacrusis bar"
  else .error "Incomplete bar at end of score"

/-! ### Note durations (lines 1120-1134 of `toMarkup`) -/

/-- The `while b < nBeams` halving loop: `toAdd` starts at a crotchet (16
64th-units) and is halved per beam. -/
def beamLoop : ℕ → ℚ
  | 0 => 16
  | n + 1 => beamLoop n / 2

/-- The `for _ in dots` loop: each dot adds half of the previous extension. -/
def dotLoop : ℕ → ℚ → ℚ → ℚ
  | 0, toAdd, _ => toAdd
  | n + 1, toAdd, toAdd0 => dotLoop n (toAdd + toAdd0 / 2) (toAdd0 / 2)

/-- Duration in 64th-note units of a note with `nBeams` beams, `dots` dots
and the current tuplet ratio (line 1133: the ratio is applied only when its
two components differ). -/
def durationOf (nBeams dots : ℕ) (tup : ℕ × ℕ) : ℚ :=
  let toAdd := beamLoop nBeams
  let toAdd2 := dotLoop dots toAdd toAdd
  if tup.1 = tup.2 then toAdd2 else toAdd2 * tup.1 / tup.2

/-- Lines 1084-1088: an unspecified beam count inherits the previous note's
beams under `keepLength` and otherwise means no beams. -/
def resolvedBeams (st : NMState) (nBeamsOpt : Option ℕ) : ℕ :=
  match nBeamsOpt with
  | none => if st.keepLength then st.lastNBeams else 0
  | some n => n

/-! ### Bar-position advance (lines 1195-1231 of `toMarkup`) -/

/-- The bar-position/bar-number component of the state. -/
structure BarState where
  barLength : ℕ
  barPos : ℚ
  barNo : ℕ
deriving DecidableEq, Repr

/-- Lines 1195-1200 and 1227-1231: advance the bar position by a duration;
crossing the barline is a fatal error; reaching the barline exactly resets
the position, increments the bar number and signals a bar-reset event
(the returned `Bool`). -/
def advanceBarPos (bs : BarState) (toAdd : ℚ) : Except String (BarState × Bool) :=
  let p := bs.barPos + toAdd
  if (bs.barLength : ℚ) < p then
    .error "barcheck fail: note crosses barline"
  else if p = (bs.barLength : ℚ) then
    .ok ({ bs with barPos := 0, barNo := bs.barNo + 1 }, true)
  else
    .ok ({ bs with barPos := p }, false)

/-- Fold `advanceBarPos` over a list of durations, collecting the bar-reset
flags of the individual steps. -/
def runBars (bs : BarState) : List ℚ → Except String (BarState × List Bool)
  | [] => .ok (bs, [])
  | d :: ds =>
    match advanceBarPos bs d with
    | .error e => .error e
    | .ok (bs2, c) =>
      match runBars bs2 ds with
      | .error e => .error e
      | .ok (bs3, cs) => .ok (bs3, c :: cs)

/-- Lines 1115-1119: a beamless note closes a running beam group before it
is emitted (the `aftrlast0` logic). -/
def beamClose0 (nBeams : ℕ) (b : BeamSt) : BeamSt :=
  if nBeams = 0 ∧ b ≠ .off then .off else b

/-- Lines 1186-1193: a beamed note opens a beam group when none is running
(or only the rest-hack pseudo-group is). -/
def beamOpen (nBeams : ℕ) (inRestHack : Bool) (b : BeamSt) : BeamSt :=
  if nBeams ≠ 0 ∧ (b = .off ∨ b = .restHack ∨ inRestHack) then .on else b

/-- Lines 1204-1212: after the bar position advanced, a beam group is
closed when the new position is an exact multiple of the beat length; the
rest hack otherwise downgrades the group. -/
def beamBeatClose (atBeat : Prop) [Decidable atBeat] (inRestHack : Bool) (b : BeamSt) :
    BeamSt :=
  if atBeat ∧ b ≠ .off then .off
  else if inRestHack ∧ b ≠ .off then .restHack
  else b

/-- The state-mutating core of `NoteheadMarkup.toMarkup` (lines 1080-1231)
for the notation (non-MIDI, non-Western, non-angka) mode: accidental
memory update (with the display decision as the returned `Bool`), beam
group opening/closing, bar-position advance with overflow check, beat-
boundary beam closing, and bar-completion reset.  Output-string
construction is omitted; `inRestHack` is the local flag of the rest hack
(lines 1145-1168). -/
def toMarkupStep (st : NMState) (figures : List Char) (oct acc : String)
    (nBeamsOpt : Option ℕ) (dots : ℕ) (inRestHack : Bool) :
    Except String (NMState × Bool) :=
  let mem0 := ensureKey st.current_accidentals oct
  let nBeams := resolvedBeams st nBeamsOpt
  let beam0 := beamClose0 nBeams st.inBeamGroup
  let toAdd := durationOf nBeams dots st.tuplet
  let nsMem := accLoop oct acc figures (false, mem0)
  let beam1 := beamOpen nBeams inRestHack beam0
  let p := st.barPos + toAdd
  match advanceBarPos ⟨st.barLength, st.barPos, st.barNo⟩ toAdd with
  | .error e => .error e
  | .ok (bs, completed) =>
    let beam2 := beamBeatClose (pymod p st.beatLength = 0) inRestHack beam1
    .ok ({ st with
            barPos := bs.barPos
            barNo := bs.barNo
            current_accidentals := if completed then [] else nsMem.2
            inBeamGroup := beam2
            lastNBeams := nBeams }, nsMem.1)

/-! ### Figure/accidental/octave validation (lines 873-896, 964-968) -/

/-- The accidental part of `_validate_figures`: every accidental must be
one of blank, sharp, flat. -/
def checkAccidentals : List String → Except String Unit
  | [] => .ok ()
  | a :: rest =>
    if a ∉ ["", "#", "b"] then .error ("Can't handle accidental " ++ a ++ " in")
    else checkAccidentals rest

/-- `_validate_figures` (lines 873-896): a chord may not contain a rest or
dash figure, and accidentals must be recognised. -/
def validate_figures (figures : List Char) (accidentals : List String) :
    Except String Unit :=
  if 1 < figures.length ∧ '0' ∈ figures then .error "Can't have rest in chord:"
  else if 1 < figures.length ∧ '-' ∈ figures then
    .error "Dash not allowed in multi-figure chords:"
  else checkAccidentals accidentals

/-- The octave check of `_process_figures` (lines 966-968): every resolved
octave must be one of the five permitted levels. -/
def checkOctaves : List String → Except String Unit
  | [] => .ok ()
  | o :: rest =>
    if o ∉ [",,", ",", "", "'", "''"] then .error ("Can't handle octave " ++ o ++ " in")
    else checkOctaves rest

/-- Lines 965-968 of `_process_figures` (the branch for a genuine new note,
not a tie continuation): resolve each written octave against the base
octave via `addOctaves` and validate the result. -/
def resolveOctaves (octaves : List String) (base : String) :
    Except String (List String) :=
  let resolved := octaves.map fun o => addOctaves o base
  match checkOctaves resolved with
  | .error e => .error e
  | .ok _ => .ok resolved

/-! ### `getLY` dispatcher pieces: repeats, tuplets, final checks -/

/-- One entry of `getLY`'s `repeatStack`: the `(numBraces, barPos-at-open,
extraRepeats)` tuples pushed at lines 2671-2677, 2690-2692. -/
structure RepeatFrame where
  numBraces : ℕ
  oldBarPos : ℚ
  extraRepeats : ℕ
deriving DecidableEq, Repr

/-- Lines 2670-2673 (`word[0] == "R" and word[-1] == "{"`, i.e. `R{` and
every `RN{`): push `(1, 0, 0)` and emit a volta repeat. -/
def handleVoltaOpen (stack : List RepeatFrame) : List RepeatFrame :=
  ⟨1, 0, 0⟩ :: stack

/-- Lines 2674-2677 (the percent-repeat branch `re.match("R[1-9][0-9]*{$",
word)`): push `(1, barPos, times - 1)`.  This branch is unreachable: every
word its regex matches starts with `R` and ends with `{`, so the `elif` at
line 2670 has already taken it (see `repeatOpenDispatch`). -/
def handlePercentOpen (st : NMState) (stack : List RepeatFrame) (times : ℕ) :
    List RepeatFrame :=
  ⟨1, st.barPos, times - 1⟩ :: stack

/-- The test of the `elif` at line 2670: `word[0] == "R" and word[-1] ==
"{"` (on the word's character list; `getLY` words are nonempty). -/
def isVoltaOpenWord : List Char → Bool
  | [] => false
  | c :: rest => c == 'R' && (c :: rest).getLast? == some '\x7b'

/-- The `[0-9]*{$` tail of the percent-repeat regex at line 2674. -/
def percentTailOk : List Char → Bool
  | [] => false
  | c :: rest =>
    if rest.isEmpty then c == '\x7b'
    else if '0' ≤ c ∧ c ≤ '9' then percentTailOk rest else false

/-- The test of the `elif` at line 2674: `re.match("R[1-9][0-9]*{$", word)`. -/
def isPercentOpenWord : List Char → Bool
  | a :: c :: rest =>
    if a = 'R' ∧ '1' ≤ c ∧ c ≤ '9' then percentTailOk rest else false
  | _ => false

/-- `int(word[1:-1])`: the decimal value of the repeat-count digits. -/
def decDigits (cs : List Char) : ℕ :=
  cs.foldl (fun a c => 10 * a + (c.toNat - '0'.toNat)) 0

/-- The `times = int(word[1:-1])` of line 2675. -/
def percentTimes (w : List Char) : ℕ := decDigits (w.drop 1).dropLast

/-- The `elif` chain of `getLY` restricted to the two repeat-opening
branches, in source order (lines 2670-2677): the volta test runs first, the
percent test only if the volta test failed. -/
def repeatOpenDispatch (st : NMState) (stack : List RepeatFrame) (w : List Char) :
    Option (List RepeatFrame) :=
  if isVoltaOpenWord w then some (handleVoltaOpen stack)
  else if isPercentOpenWord w then some (handlePercentOpen st stack (percentTimes w))
  else none

/-- Lines 2690-2692 (`A{`): push `(2, barPos, 0)` recording the bar position
at the opening of the alternate-ending group. -/
def handleAltOpen (st : NMState) (stack : List RepeatFrame) : List RepeatFrame :=
  ⟨2, st.barPos, 0⟩ :: stack

/-- Lines 2693-2696 (`|` inside an `A{` group): reset the bar position to
the value recorded when the group opened; outside an `A{` group the word
falls through to other handling and the state is untouched. -/
def handleAltSep (st : NMState) (stack : List RepeatFrame) : NMState :=
  match stack with
  | f :: _ => if f.numBraces = 2 then { st with barPos := f.oldBarPos } else st
  | [] => st

/-- Closed form of the loop `while newBarPos < oldBarPos: newBarPos +=
barLength` (lines 2683-2685): the first value of the form
`p + k * barLength` (k a natural number) that is `≥ old`. -/
def liftToAtLeast (bL old p : ℚ) : ℚ :=
  if p < old then p + bL * (⌈(old - p) / bL⌉ : ℤ) else p

/-- Lines 2678-2688 (`}`): pop a repeat frame and re-synchronise the bar
position: the closed bracket's bar-position delta (mod the bar length)
times `extraRepeats` is added, then reduced mod the bar length.  A `}`
with an empty stack raises in Python (`pop` from empty list). -/
def handleCloseBrace (st : NMState) (stack : List RepeatFrame) :
    Option (NMState × List RepeatFrame) :=
  match stack with
  | [] => none
  | f :: rest =>
    let newBarPos := liftToAtLeast (st.barLength : ℚ) f.oldBarPos st.barPos
    some ({ st with
             barPos := pymod (st.barPos + (newBarPos - f.oldBarPos) * f.extraRepeats)
                        (st.barLength : ℚ) }, rest)

/-- Lines 2709-2719 (tuplet start `N[`): the `while i < fitIn: i *= 2`
search, started at `i = 2`.  The `0 < i` guard only serves termination and
is always true on the call chain from `tupletStart`. -/
def tupletSpan (i n : ℕ) : ℕ :=
  if h : 0 < i ∧ i < n then tupletSpan (2 * i) n else i
termination_by n - i
decreasing_by omega

/-- Lines 2709-2720: the tuplet ratio `(num, fitIn)` emitted for a tuplet
word `N[`. -/
def tupletStart (n : ℕ) : ℕ × ℕ :=
  let i := tupletSpan 2 n
  (if i = n then 3 * n / 2 else i / 2, n)

/-- Lines 2716-2720: `N[` sets `notehead_markup.tuplet` to the computed
ratio. -/
def applyTupletStart (st : NMState) (n : ℕ) : NMState :=
  { st with tuplet := tupletStart n }

/-- Lines 2721-2723 (`]`): reset the tuplet ratio to 1:1. -/
def applyTupletEnd (st : NMState) : NMState :=
  { st with tuplet := (1, 1) }

/-- The denominator alphabet of the time-signature word regex
`[1-9][0-9]*/[1-468]+(,[1-9][0-9]*[.]?)?$` (line 2632). -/
def timeSigDenomAccepted (s : String) : Bool :=
  s ≠ "" && s.toList.all fun c => c ∈ ['1', '2', '3', '4', '6', '8']

/-- Lines 2761-2763: a part whose processing left the bar position at 0 and
the bar number at 1 contains no jianpu and is a fatal error. -/
def noJianpuCheck (st : NMState) : Except String Unit :=
  if st.barPos = 0 ∧ st.barNo = 1 then .error "No jianpu in score" else .ok ()

/-! ### `collapse_tied_notes` (lines 2384-2456), token-level model

A token is one lexical unit of the emitted LilyPond text as matched by the
`note_patterns` regexes: a note `name ++ len` (with an optional `:32`
tremolo marker, the regex group `((?::32)?)`), the tie `~`, a backslash
command `\...` (the regex group `(( \\[^ ]+)*)`), or anything else. -/

/-- One token of the rendered LilyPond stream seen by
`collapse_tied_notes`. -/
inductive LyTok
  | note (name : String) (len : String) (trem : Bool)
  | tie
  | cmd (s : String)
  | other (s : String)
deriving DecidableEq, Repr

/-- Duration in 64th-note units denoted by a LilyPond length code, for the
length codes occurring in the collapse patterns. -/
def lenVal (len : String) : ℚ :=
  if len = "4" then 16 else if len = "4." then 24
  else if len = "2" then 32 else if len = "2." then 48
  else if len = "1" then 64 else if len = "1." then 96 else 0

/-- Duration of one token (only notes carry duration). -/
def durVal : LyTok → ℚ
  | .note _ len _ => lenVal len
  | _ => 0

/-- Total duration of a token stream. -/
def durTotal (toks : List LyTok) : ℚ :=
  (toks.map durVal).sum

/-- The trailing `+ " +~ ".join([r"(?P=note)4" + dot] * (numNotes - 1))`
part of the tied-note regex: `k` further occurrences of the same note name
with the same base length (and no tremolo marker), joined by ties.
Returns the unmatched remainder. -/
def matchTail (n base : String) : ℕ → (toks : List LyTok) →
    Option { r : List LyTok // r.length ≤ toks.length }
  | 1, .note n2 len2 tr :: rest =>
    if n2 = n then
      if len2 = base then
        if tr = false then some ⟨rest, by simp⟩ else none
      else none
    else none
  | k + 2, .note n2 len2 tr :: .tie :: rest =>
    if n2 = n then
      if len2 = base then
        if tr = false then
          match matchTail n base (k + 1) rest with
          | some ⟨r, h⟩ => some ⟨r, by simp; omega⟩
          | none => none
        else none
      else none
    else none
  | _, _ => none

/-- The `(( \\[^ ]+)*)` group: a maximal run of backslash commands. -/
def spanCmds : (toks : List LyTok) →
    List LyTok × { r : List LyTok // r.length ≤ toks.length }
  | [] => ([], ⟨[], by simp⟩)
  | .cmd s :: rest =>
    match spanCmds rest with
    | (cs, ⟨r, h⟩) => (.cmd s :: cs, ⟨r, by simp; omega⟩)
  | t :: rest => ([], ⟨t :: rest, by simp⟩)

/-- One attempted match of a `tied_note_pattern` (lines 2413-2420) at the
head of the token list: the first note of base length (keeping its tremolo
group), the tie, a run of commands, then `numNotes - 1` further tied copies
of the same note.  On success returns the replacement tokens
(`\g<note> + result + \g<2> + \g<3>`) and the remainder. -/
def tryMatch (numNotes : ℕ) (base result : String) :
    (toks : List LyTok) →
    Option (List LyTok × { r : List LyTok // r.length < toks.length })
  | .note n len tr :: .tie :: rest =>
    if len = base then
      match spanCmds rest with
      | (cmds, ⟨r1, h1⟩) =>
        match matchTail n base (numNotes - 1) r1 with
        | some ⟨r2, h2⟩ => some (.note n result tr :: cmds, ⟨r2, by simp; omega⟩)
        | none => none
    else none
  | _ => none

/-- `re.sub` with one tied-note pattern: scan left to right, replace each
non-overlapping match and continue after it (the replacement itself is not
re-scanned). -/
def collapsePat (numNotes : ℕ) (base result : String) : List LyTok → List LyTok
  | [] => []
  | t :: ts =>
    match tryMatch numNotes base result (t :: ts) with
    | some (rep, ⟨rest, h⟩) => rep ++ collapsePat numNotes base result rest
    | none => t :: collapsePat numNotes base result ts
termination_by toks => toks.length
decreasing_by
all_goals simp only [List.length_cons, List.length_append] at *
all_goals omega

/-- The `note_patterns` table of `collapse_tied_notes` (lines 2402-2408),
applied in source order. -/
def collapseTiedNotes (toks : List LyTok) : List LyTok :=
  collapsePat 2 "4" "2"
    (collapsePat 2 "4." "2."
      (collapsePat 3 "4" "2."
        (collapsePat 4 "4" "1"
          (collapsePat 4 "4." "1." toks))))

/-- Lines 2515-2517 of `finalize_output`: the collapse pass runs exactly
for the MIDI and Western-staff outputs. -/
def finalizeCollapse (midi western : Bool) (toks : List LyTok) : List LyTok :=
  if midi || western then collapseTiedNotes toks else toks

/-! ### `convert_ties_to_slurs` (lines 1817-1901) and `reformat_slurs`
(lines 1904-1933), token-level model

A token is one unit of the raw jianpu score text as matched by the pattern
parts of `convert_ties_to_slurs`: a note word (`note_pattern`), a quoted
annotation (`annotation_pattern`), a duration-extension dash, the tie `~`,
a time signature, a slur parenthesis, or anything else.  `ptie` is the
`__TIE__` placeholder used to protect ties inside explicit slurs. -/

/-- One token of the jianpu score text. -/
inductive JTok
  | note (s : String)
  | annot (s : String)
  | dash
  | tie
  | ptie
  | timesig (s : String)
  | lpar
  | rpar
  | other (s : String)
deriving DecidableEq, Repr

/-- The `[^()]*` body of the slur-protection regex: collect tokens up to
the first parenthesis; succeed only if that parenthesis closes the slur. -/
def scanRegion : (toks : List JTok) →
    Option (List JTok × { r : List JTok // r.length < toks.length })
  | [] => none
  | .rpar :: rest => some ([], ⟨rest, by simp⟩)
  | .lpar :: _ => none
  | t :: rest =>
    match scanRegion rest with
    | some (seg, ⟨r, h⟩) => some (t :: seg, ⟨r, by simp; omega⟩)
    | none => none

/-- The tie-protection pre-pass (lines 1832-1839): inside every
parenthesis-free slur region that contains a tie, every tie is replaced by
the `__TIE__` placeholder; scanning continues after the closing
parenthesis of a protected region. -/
def protectTies : List JTok → List JTok
  | [] => []
  | .lpar :: rest =>
    match scanRegion rest with
    | some (seg, ⟨r, h⟩) =>
      if JTok.tie ∈ seg then
        JTok.lpar :: (seg.map fun t => if t = JTok.tie then JTok.ptie else t) ++
          JTok.rpar :: protectTies r
      else JTok.lpar :: protectTies rest
    | none => JTok.lpar :: protectTies rest
  | t :: rest => t :: protectTies rest
termination_by toks => toks.length
decreasing_by
all_goals simp only [List.length_cons, List.length_append] at *
all_goals omega

/-- The `annotation_pattern*` part: a maximal run of quoted annotations. -/
def eatAnnots : (toks : List JTok) →
    List JTok × { r : List JTok // r.length ≤ toks.length }
  | .annot s :: rest =>
    match eatAnnots rest with
    | (as, ⟨r, h⟩) => (.annot s :: as, ⟨r, by simp; omega⟩)
  | toks => ([], ⟨toks, by simp⟩)

/-- The `dash_and_annotation_pattern*` part: a maximal run of groups, each
a dash followed by annotations. -/
def eatDashAnnots : (toks : List JTok) →
    List JTok × { r : List JTok // r.length ≤ toks.length }
  | .dash :: rest =>
    match eatAnnots rest with
    | (as, ⟨r1, h1⟩) =>
      match eatDashAnnots r1 with
      | (ds, ⟨r2, h2⟩) =>
        (.dash :: as ++ ds, ⟨r2, by simp only [List.length_cons]; omega⟩)
  | toks => ([], ⟨toks, by simp⟩)
termination_by toks => toks.length
decreasing_by
all_goals simp only [List.length_cons, List.length_append] at *
all_goals omega

/-- The `(tie_pattern time_signature_pattern? note annots dash-annots)+`
tail of the combined tie pattern: consume one or more tie-led groups.  The
tie tokens themselves are dropped (the replacement splits the match on
`~`); an optional time signature directly after a tie is kept in place
(lines 1871-1877). -/
def chainIters : (toks : List JTok) →
    Option (List JTok × { r : List JTok // r.length ≤ toks.length })
  | .tie :: .timesig s :: .note n :: r1 =>
    match eatAnnots r1 with
    | (a, ⟨r2, h2⟩) =>
      match eatDashAnnots r2 with
      | (d, ⟨r3, h3⟩) =>
        match chainIters r3 with
        | some (segs, ⟨r4, h4⟩) =>
          some (JTok.timesig s :: JTok.note n :: a ++ d ++ segs,
                ⟨r4, by simp only [List.length_cons]; omega⟩)
        | none =>
          some (JTok.timesig s :: JTok.note n :: a ++ d,
                ⟨r3, by simp only [List.length_cons]; omega⟩)
  | .tie :: .note n :: r1 =>
    match eatAnnots r1 with
    | (a, ⟨r2, h2⟩) =>
      match eatDashAnnots r2 with
      | (d, ⟨r3, h3⟩) =>
        match chainIters r3 with
        | some (segs, ⟨r4, h4⟩) =>
          some (JTok.note n :: a ++ d ++ segs,
                ⟨r4, by simp only [List.length_cons]; omega⟩)
        | none =>
          some (JTok.note n :: a ++ d, ⟨r3, by simp only [List.length_cons]; omega⟩)
  | _ => none
termination_by toks => toks.length
decreasing_by
all_goals simp only [List.length_cons, List.length_append] at *
all_goals omega

/-- The `(dash annot*)+` group of the parenthesis-movement regexes
(maximal munch); succeeds only on a list starting with a dash. -/
def takeDashGroup : (toks : List JTok) →
    Option (List JTok × { r : List JTok // r.length ≤ toks.length })
  | .dash :: rest =>
    match eatAnnots rest with
    | (as, ⟨r1, h1⟩) =>
      match takeDashGroup r1 with
      | some (g, ⟨r2, h2⟩) =>
        some (.dash :: as ++ g, ⟨r2, by simp only [List.length_cons]; omega⟩)
      | none => some (.dash :: as, ⟨r1, by simp only [List.length_cons]; omega⟩)
  | _ => none
termination_by toks => toks.length
decreasing_by
all_goals simp only [List.length_cons, List.length_append] at *
all_goals omega

/-- The parenthesis move inside `slur_replacement` (lines 1893-1898,
comment `Move parenthesis before dashes`): each slur parenthesis that
follows a dash-annotation group is moved before the group. -/
def moveParenBeforeDashes : List JTok → List JTok
  | [] => []
  | t :: ts =>
    match takeDashGroup (t :: ts) with
    | some (g, ⟨p :: rest2, h⟩) =>
      if p = JTok.lpar ∨ p = JTok.rpar then p :: g ++ moveParenBeforeDashes rest2
      else t :: moveParenBeforeDashes ts
    | some (g, ⟨[], h⟩) => t :: moveParenBeforeDashes ts
    | none => t :: moveParenBeforeDashes ts
termination_by toks => toks.length
decreasing_by
all_goals simp only [List.length_cons, List.length_append] at *
all_goals omega

/-- One attempted match of the `combined_tie_pattern` (lines 1852-1863) at
the head of the token list, together with its `slur_replacement` (lines
1867-1900): the matched chain is split at the ties, rebuilt as
`part0 ( part1 ... partN )`, and the parenthesis move is applied to the
replacement. -/
def tryChain (toks : List JTok) :
    Option (List JTok × { r : List JTok // r.length < toks.length }) :=
  match toks with
  | .note n :: rest =>
    match eatAnnots rest with
    | (a0, ⟨r0, h0⟩) =>
      match eatDashAnnots r0 with
      | (d0, ⟨r1, h1⟩) =>
        match chainIters r1 with
        | some (segs, ⟨r2, h2⟩) =>
          some (moveParenBeforeDashes
                  (JTok.note n :: a0 ++ d0 ++ JTok.lpar :: segs ++ [JTok.rpar]),
                ⟨r2, by simp; omega⟩)
        | none => none
  | _ => none

/-- `re.sub` with the combined tie pattern: scan left to right, replacing
each tie chain and continuing after it. -/
def rewriteChains : List JTok → List JTok
  | [] => []
  | t :: ts =>
    match tryChain (t :: ts) with
    | some (rep, ⟨rest, h⟩) => rep ++ rewriteChains rest
    | none => t :: rewriteChains ts
termination_by toks => toks.length
decreasing_by
all_goals simp only [List.length_cons, List.length_append] at *
all_goals omega

/-- `convert_ties_to_slurs` (lines 1817-1901): protect ties inside explicit
slurs, rewrite the remaining tie chains to slur brackets, and restore the
protected ties (`.replace("__TIE__", "~")`). -/
def convertTiesToSlurs (toks : List JTok) : List JTok :=
  (rewriteChains (protectTies toks)).map fun t => if t = JTok.ptie then JTok.tie else t

/-- `reformat_slurs` (lines 1904-1933): move each slur parenthesis that
precedes a dash-annotation group to after the group. -/
def reformatSlurs : List JTok → List JTok
  | [] => []
  | p :: ts =>
    if p = JTok.lpar ∨ p = JTok.rpar then
      match takeDashGroup ts with
      | some (g, ⟨rest, h⟩) => g ++ p :: reformatSlurs rest
      | none => p :: reformatSlurs ts
    else p :: reformatSlurs ts
termination_by toks => toks.length
decreasing_by
all_goals simp only [List.length_cons, List.length_append] at *
all_goals omega

/-- Lines 2552-2558 of `getLY`: ties become slurs in notation (non-MIDI)
mode; in MIDI mode only the slur reformatting runs. -/
def preprocessScore (midi : Bool) (toks : List JTok) : List JTok :=
  if midi then reformatSlurs toks else convertTiesToSlurs toks

/-- Chain-building helper: the tail `~ n1 ~ n2 ...` of a tie chain. -/
def tieNotes : List String → List JTok
  | [] => []
  | n :: ns => JTok.tie :: JTok.note n :: tieNotes ns

/-- Invariant of the accidental memory: every value list has the 7 entries
it is created with (`[""] * 7`). -/
def MemWF (mem : AccMem) : Prop := ∀ p ∈ mem, p.2.length = 7

/-! ## Theorems -/

/-! ### Helper lemmas about `netOct` and `addOctGo` (claim C9) -/

lemma netOct_nil : netOct [] = 0 := rfl

lemma netOct_cons (c : Char) (l : List Char) :
    netOct (c :: l) = octMarkVal c + netOct l := by
  simp [netOct]

lemma netOct_append (l1 l2 : List Char) :
    netOct (l1 ++ l2) = netOct l1 + netOct l2 := by
  simp [netOct]

lemma netOct_allUp (l : List Char) (h : ∀ c ∈ l, c = '\'') :
    netOct l = l.length := by
  induction l with
  | nil => simp [netOct]
  | cons c rest ih =>
    have hc : c = '\'' := h c (List.mem_cons_self c rest)
    rw [netOct_cons, ih fun x hx => h x (List.mem_cons_of_mem c hx), hc]
    simp [octMarkVal]
    omega

lemma netOct_allDown (l : List Char) (h : ∀ c ∈ l, c = ',') :
    netOct l = -l.length := by
  induction l with
  | nil => simp [netOct]
  | cons c rest ih =>
    have hc : c = ',' := h c (List.mem_cons_self c rest)
    rw [netOct_cons, ih fun x hx => h x (List.mem_cons_of_mem c hx), hc]
    simp [octMarkVal]

lemma addOct_step_up (o2 : List Char) (h : HomogOct o2) :
    HomogOct (if ',' ∈ o2 then o2.dropLast else o2 ++ ['\'']) ∧
    netOct (if ',' ∈ o2 then o2.dropLast else o2 ++ ['\'']) = netOct o2 + 1 := by
  by_cases hm : ',' ∈ o2
  · have hdown : ∀ c ∈ o2, c = ',' := by
      rcases h with hup | hdn
      · exact absurd (hup ',' hm) (by decide)
      · exact hdn
    have hdl : ∀ c ∈ o2.dropLast, c = ',' := fun c hc => hdown c (List.dropLast_subset _ hc)
    have hlen : 0 < o2.length := List.length_pos.mpr (List.ne_nil_of_mem hm)
    rw [if_pos hm]
    refine ⟨Or.inr hdl, ?_⟩
    rw [netOct_allDown _ hdl, netOct_allDown _ hdown, List.length_dropLast]
    push_cast
    omega
  · have hup : ∀ c ∈ o2, c = '\'' := by
      rcases h with hup | hdn
      · exact hup
      · intro c hc
        exact absurd (hdn c hc ▸ hc) hm
    rw [if_neg hm]
    constructor
    · left
      intro c hc
      rcases List.mem_append.mp hc with hc2 | hc2
      · exact hup c hc2
      · simpa using hc2
    · rw [netOct_append, netOct_cons, netOct_nil]
      simp [octMarkVal]

lemma addOct_step_down (o2 : List Char) (h : HomogOct o2) :
    HomogOct (if '\'' ∈ o2 then o2.dropLast else o2 ++ [',']) ∧
    netOct (if '\'' ∈ o2 then o2.dropLast else o2 ++ [',']) = netOct o2 - 1 := by
  by_cases hm : '\'' ∈ o2
  · have hupAll : ∀ c ∈ o2, c = '\'' := by
      rcases h with hup | hdn
      · exact hup
      · exact absurd (hdn '\'' hm) (by decide)
    have hdl : ∀ c ∈ o2.dropLast, c = '\'' := fun c hc => hupAll c (List.dropLast_subset _ hc)
    have hlen : 0 < o2.length := List.length_pos.mpr (List.ne_nil_of_mem hm)
    rw [if_pos hm]
    refine ⟨Or.inl hdl, ?_⟩
    rw [netOct_allUp _ hdl, netOct_allUp _ hupAll, List.length_dropLast]
    push_cast
    omega
  · have hdn : ∀ c ∈ o2, c = ',' := by
      rcases h with hup | hdn
      · intro c hc
        exact absurd (hup c hc ▸ hc) hm
      · exact hdn
    rw [if_neg hm]
    constructor
    · right
      intro c hc
      rcases List.mem_append.mp hc with hc2 | hc2
      · exact hdn c hc2
      · simpa using hc2
    · rw [netOct_append, netOct_cons, netOct_nil]
      simp [octMarkVal]
      ring

lemma addOctGo_spec :
    ∀ o1 o2 : List Char, (∀ c ∈ o1, c = '\'' ∨ c = '>' ∨ c = ',' ∨ c = '<') →
    HomogOct o2 →
    netOct (addOctGo o1 o2) = netOct o1 + netOct o2 ∧ HomogOct (addOctGo o1 o2) := by
  intro o1
  induction o1 with
  | nil =>
    intro o2 _ h
    rw [addOctGo, netOct_nil]
    exact ⟨by omega, h⟩
  | cons c rest ih =>
    intro o2 hc h
    rw [addOctGo]
    by_cases hcu : c = '\'' ∨ c = '>'
    · rw [if_pos hcu]
      obtain ⟨hh, hn⟩ := addOct_step_up o2 h
      obtain ⟨ihn, ihh⟩ := ih _ (fun x hx => hc x (List.mem_cons_of_mem c hx)) hh
      refine ⟨?_, ihh⟩
      rw [ihn, hn, netOct_cons]
      have : octMarkVal c = 1 := by
        rcases hcu with rfl | rfl <;> rfl
      omega
    · rw [if_neg hcu]
      obtain ⟨hh, hn⟩ := addOct_step_down o2 h
      obtain ⟨ihn, ihh⟩ := ih _ (fun x hx => hc x (List.mem_cons_of_mem c hx)) hh
      refine ⟨?_, ihh⟩
      rw [ihn, hn, netOct_cons]
      have : octMarkVal c = -1 := by
        rcases hc c (List.mem_cons_self c rest) with rfl | rfl | rfl | rfl
        · exact absurd (Or.inl rfl) hcu
        · exact absurd (Or.inr rfl) hcu
        · rfl
        · rfl
      omega

lemma netOct_map_norm (l : List Char) :
    netOct (l.map normOctChar) = netOct l := by
  induction l with
  | nil => rfl
  | cons c rest ih =>
    rw [List.map_cons, netOct_cons, netOct_cons, ih]
    have : octMarkVal (normOctChar c) = octMarkVal c := by
      by_cases h1 : c = '>'
      · subst h1; rfl
      · by_cases h2 : c = '<'
        · subst h2; rfl
        · simp [normOctChar, h1, h2]
    omega

/-- C9: `addOctaves` computes exact addition of octave offsets: for a first
argument made of octave marks and a second argument whose marks all point
one way, the net offset of the result is the sum of the two net offsets,
and the result's marks again all point one way. -/
theorem claim_C9 (o1 o2 : String)
    (h1 : ∀ c ∈ o1.toList, c = '\'' ∨ c = '>' ∨ c = ',' ∨ c = '<')
    (h2 : (∀ c ∈ o2.toList, c = '\'' ∨ c = '>') ∨ (∀ c ∈ o2.toList, c = ',' ∨ c = '<')) :
    netOct (addOctaves o1 o2).toList = netOct o1.toList + netOct o2.toList ∧
    HomogOct (addOctaves o1 o2).toList := by
  have hmaph : HomogOct (o2.toList.map normOctChar) := by
    rcases h2 with hu | hd
    · left
      intro c hcm
      obtain ⟨x, hx, rfl⟩ := List.mem_map.mp hcm
      rcases hu x hx with rfl | rfl <;> rfl
    · right
      intro c hcm
      obtain ⟨x, hx, rfl⟩ := List.mem_map.mp hcm
      rcases hd x hx with rfl | rfl <;> rfl
  have hgo := addOctGo_spec o1.toList (o2.toList.map normOctChar) h1 hmaph
  have htl : (addOctaves o1 o2).toList = addOctGo o1.toList (o2.toList.map normOctChar) := rfl
  rw [htl, hgo.1, netOct_map_norm]
  exact ⟨rfl, hgo.2⟩

/-- Closed witness for C9 at concrete inputs. -/
theorem claim_C9_witness :
    netOct (addOctaves "''" ",").toList = netOct "''".toList + netOct ",".toList ∧
    HomogOct (addOctaves "''" ",").toList :=
  claim_C9 "''" "," (by decide) (by decide)

/-! ### Claim C10: empty part is a fatal error -/

/-- C10: a part whose processing leaves the bar position at 0 and the bar
number at 1 makes `getLY` abort with the fatal "No jianpu in score"
error. -/
theorem claim_C10 (st : NMState) (h0 : st.barPos = 0) (h1 : st.barNo = 1) :
    noJianpuCheck st = .error "No jianpu in score" := by
  simp [noJianpuCheck, h0, h1]

/-- Closed witness for C10: the freshly initialised score state. -/
theorem claim_C10_witness :
    noJianpuCheck initOneScore = .error "No jianpu in score" :=
  claim_C10 initOneScore rfl rfl

/-! ### Claim C4: figure/accidental/octave validation -/

lemma isErr_iff {α : Type} (x : Except String α) :
    isErr x = true ↔ ∃ e, x = .error e := by
  cases x <;> simp [isErr]

lemma checkAccidentals_err (accs : List String) (a : String) (ha : a ∈ accs)
    (hbad : a ∉ (["", "#", "b"] : List String)) :
    isErr (checkAccidentals accs) = true := by
  induction accs with
  | nil => simp at ha
  | cons x rest ih =>
    rw [checkAccidentals]
    by_cases hx : x ∉ (["", "#", "b"] : List String)
    · rw [if_pos hx]
      rfl
    · rw [if_neg hx]
      rcases List.mem_cons.mp ha with rfl | hmem
      · exact absurd hbad hx
      · exact ih hmem

lemma checkOctaves_err (octs : List String) (o : String) (ho : o ∈ octs)
    (hbad : o ∉ ([",,", ",", "", "'", "''"] : List String)) :
    isErr (checkOctaves octs) = true := by
  induction octs with
  | nil => simp at ho
  | cons x rest ih =>
    rw [checkOctaves]
    by_cases hx : x ∉ ([",,", ",", "", "'", "''"] : List String)
    · rw [if_pos hx]
      rfl
    · rw [if_neg hx]
      rcases List.mem_cons.mp ho with rfl | hmem
      · exact absurd hbad hx
      · exact ih hmem

/-- C4: a chord (more than one figure) containing the rest figure or the
dash figure is a fatal error; an accidental other than blank, `#`, `b` is
a fatal error; a resolved octave (base octave added) outside the five
levels is a fatal error. -/
theorem claim_C4 :
    (∀ (figures : List Char) (accidentals : List String),
       1 < figures.length → '0' ∈ figures →
       validate_figures figures accidentals = .error "Can't have rest in chord:") ∧
    (∀ (figures : List Char) (accidentals : List String),
       1 < figures.length → '-' ∈ figures →
       isErr (validate_figures figures accidentals) = true) ∧
    (∀ (figures : List Char) (accidentals : List String) (a : String),
       a ∈ accidentals → a ∉ (["", "#", "b"] : List String) →
       isErr (validate_figures figures accidentals) = true) ∧
    (∀ (octaves : List String) (base o : String),
       o ∈ octaves → addOctaves o base ∉ ([",,", ",", "", "'", "''"] : List String) →
       isErr (resolveOctaves octaves base) = true) := by
  refine ⟨?_, ?_, ?_, ?_⟩
  · intro figures accidentals h1 h2
    rw [validate_figures, if_pos ⟨h1, h2⟩]
  · intro figures accidentals h1 h2
    rw [validate_figures]
    by_cases h0 : 1 < figures.length ∧ '0' ∈ figures
    · rw [if_pos h0]
      rfl
    · rw [if_neg h0, if_pos ⟨h1, h2⟩]
      rfl
  · intro figures accidentals a ha hbad
    rw [validate_figures]
    by_cases h0 : 1 < figures.length ∧ '0' ∈ figures
    · rw [if_pos h0]
      rfl
    · rw [if_neg h0]
      by_cases hd : 1 < figures.length ∧ '-' ∈ figures
      · rw [if_pos hd]
        rfl
      · rw [if_neg hd]
        exact checkAccidentals_err accidentals a ha hbad
  · intro octaves base o ho hbad
    rw [resolveOctaves]
    have hmem : addOctaves o base ∈ octaves.map fun x => addOctaves x base :=
      List.mem_map_of_mem _ ho
    have herr := checkOctaves_err _ _ hmem hbad
    obtain ⟨e, he⟩ := (isErr_iff _).mp herr
    rw [he]
    rfl

/-! ### Claim C2: alternate endings and percent repeats -/

lemma pymod_self (m : ℚ) (hm : m ≠ 0) : pymod m m = 0 := by
  unfold pymod
  rw [div_self hm, Int.floor_one]
  push_cast
  ring

lemma pymod_small (a m : ℚ) (h0 : 0 ≤ a) (hm : a < m) : pymod a m = a := by
  have hmpos : 0 < m := lt_of_le_of_lt h0 hm
  unfold pymod
  have hfl : ⌊a / m⌋ = 0 := by
    rw [Int.floor_eq_zero_iff]
    constructor
    · exact div_nonneg h0 hmpos.le
    · rw [div_lt_one hmpos]
      exact hm
  rw [hfl]
  ring

lemma lift_delta (bL old p : ℚ) (hb : 0 < bL) (ho : 0 ≤ old) (hp : p < bL) :
    liftToAtLeast bL old p - old = pymod (p - old) bL := by
  unfold liftToAtLeast pymod
  by_cases hlt : p < old
  · rw [if_pos hlt]
    have hceil : (⌈(old - p) / bL⌉ : ℤ) = -⌊(p - old) / bL⌋ := by
      rw [show (old - p) / bL = -((p - old) / bL) by ring]
      exact Int.ceil_neg
    rw [hceil]
    push_cast
    ring
  · rw [if_neg hlt]
    have hfloor : ⌊(p - old) / bL⌋ = 0 := by
      rw [Int.floor_eq_zero_iff]
      constructor
      · exact div_nonneg (by linarith) hb.le
      · rw [div_lt_one hb]
        linarith
    rw [hfloor]
    ring

lemma percentTail_getLast : ∀ cs : List Char, percentTailOk cs = true →
    cs.getLast? = some '\x7b' := by
  intro cs
  induction cs with
  | nil => simp [percentTailOk]
  | cons c rest ih =>
    intro h
    rw [percentTailOk] at h
    by_cases hre : rest.isEmpty
    · have hr : rest = [] := List.isEmpty_iff.mp hre
      rw [if_pos hre] at h
      subst hr
      have hc : c = '\x7b' := by simpa using h
      subst hc
      rfl
    · rw [if_neg hre] at h
      have hr : percentTailOk rest = true := by
        by_cases hd : '0' ≤ c ∧ c ≤ '9'
        · rwa [if_pos hd] at h
        · rw [if_neg hd] at h
          exact absurd h (by simp)
      cases rest with
      | nil => simp at hre
      | cons r rs => rw [List.getLast?_cons_cons]; exact ih hr

lemma volta_of_percent (w : List Char) (h : isPercentOpenWord w = true) :
    isVoltaOpenWord w = true := by
  cases w with
  | nil => simp [isPercentOpenWord] at h
  | cons a rest1 =>
    cases rest1 with
    | nil => simp [isPercentOpenWord] at h
    | cons c rest =>
      rw [isPercentOpenWord] at h
      have hsplit : (a = 'R' ∧ '1' ≤ c ∧ c ≤ '9') ∧ percentTailOk rest = true := by
        by_cases hd : a = 'R' ∧ '1' ≤ c ∧ c ≤ '9'
        · rw [if_pos hd] at h
          exact ⟨hd, h⟩
        · rw [if_neg hd] at h
          exact absurd h (by simp)
      obtain ⟨⟨ha, _⟩, hr⟩ := hsplit
      subst ha
      have hrest : rest ≠ [] := by
        intro he
        rw [he] at hr
        simp [percentTailOk] at hr
      have hlast : rest.getLast? = some '\x7b' := percentTail_getLast rest hr
      rw [isVoltaOpenWord]
      cases rest with
      | nil => exact absurd rfl hrest
      | cons r rs =>
        rw [List.getLast?_cons_cons, List.getLast?_cons_cons, hlast]
        decide

/-- C2 (amended): an alternate-ending separator resets the bar position to
the value recorded when the `A{` group opened; but the percent-repeat half
of the original claim fails: the `elif` at line 2670 catches every `RN{`
word before the percent branch can (every word matched by the percent
regex `R[1-9][0-9]*{$` also passes the volta test), so every `RN{` pushes
the volta frame `(1, 0, 0)` and the percent frame `(1, barPos, times - 1)`
is never pushed.  Consequently, closing an `RN{` bracket adds the bracket's
delta times the stored extra-repeat count 0 — that is, it leaves the bar
position unchanged (the general close rule, delta mod bar length times the
stored count, is proved as stated). -/
theorem claim_C2_amended :
    (∀ (st : NMState) (stack : List RepeatFrame),
       handleAltOpen st stack = ⟨2, st.barPos, 0⟩ :: stack) ∧
    (∀ (st : NMState) (f : RepeatFrame) (rest : List RepeatFrame),
       f.numBraces = 2 → (handleAltSep st (f :: rest)).barPos = f.oldBarPos) ∧
    (∀ (st : NMState) (stack : List RepeatFrame) (w : List Char),
       isPercentOpenWord w = true →
       repeatOpenDispatch st stack w = some (⟨1, 0, 0⟩ :: stack)) ∧
    (∀ (st : NMState) (old : ℚ) (e : ℕ) (rest : List RepeatFrame),
       0 < st.barLength → 0 ≤ old → st.barPos < (st.barLength : ℚ) →
       (handleCloseBrace st (⟨1, old, e⟩ :: rest)).map (fun x => (x.1.barPos, x.2)) =
         some (pymod (st.barPos + pymod (st.barPos - old) st.barLength * e)
           st.barLength, rest)) ∧
    (∀ (st : NMState) (rest : List RepeatFrame),
       0 < st.barLength → 0 ≤ st.barPos → st.barPos < (st.barLength : ℚ) →
       (handleCloseBrace st (⟨1, 0, 0⟩ :: rest)).map (fun x => (x.1.barPos, x.2)) =
         some (st.barPos, rest)) := by
  have hclose : ∀ (st : NMState) (old : ℚ) (e : ℕ) (rest : List RepeatFrame),
      0 < st.barLength → 0 ≤ old → st.barPos < (st.barLength : ℚ) →
      (handleCloseBrace st (⟨1, old, e⟩ :: rest)).map (fun x => (x.1.barPos, x.2)) =
        some (pymod (st.barPos + pymod (st.barPos - old) st.barLength * e)
          st.barLength, rest) := by
    intro st old e rest hb ho hp
    have hbq : (0 : ℚ) < (st.barLength : ℚ) := by exact_mod_cast hb
    simp only [handleCloseBrace, Option.map_some]
    rw [lift_delta _ _ _ hbq ho hp]
    rfl
  refine ⟨fun _ _ => rfl, ?_, ?_, hclose, ?_⟩
  · intro st f rest h
    simp [handleAltSep, h]
  · intro st stack w h
    rw [repeatOpenDispatch, if_pos (volta_of_percent w h)]
    rfl
  · intro st rest hb h0 hp
    rw [hclose st 0 0 rest hb le_rfl hp]
    rw [sub_zero, Nat.cast_zero, mul_zero, add_zero, pymod_small st.barPos _ h0 hp]

/-- Counterexample for C2 as stated: the word `R3{` matches the
percent-repeat regex, yet the dispatcher takes the earlier volta branch and
pushes `(1, 0, 0)` — not the percent frame `(1, barPos, times - 1)` =
`(1, 16, 2)` the claim requires — so closing the bracket leaves the bar
position at 16 instead of adding the delta 16 times 2. -/
theorem claim_C2_counterexample :
    isPercentOpenWord ['R', '3', '\x7b'] = true ∧
    repeatOpenDispatch ({ barPos := 16 } : NMState) [] ['R', '3', '\x7b'] =
      some [⟨1, 0, 0⟩] ∧
    some [(⟨1, 0, 0⟩ : RepeatFrame)] ≠ some [(⟨1, (16 : ℚ), 2⟩ : RepeatFrame)] ∧
    (handleCloseBrace ({ barPos := 16 } : NMState) [⟨1, 0, 0⟩]).map
      (fun x => (x.1.barPos, x.2)) = some ((16 : ℚ), ([] : List RepeatFrame)) := by
  refine ⟨by decide, rfl, by norm_num, ?_⟩
  simp only [handleCloseBrace, Option.map_some]
  norm_num [liftToAtLeast, pymod_small]

/-- Closed witness for C2 (amended) at concrete inputs. -/
theorem claim_C2_witness :
    isPercentOpenWord ['R', '5', '\x7b'] = true ∧
    repeatOpenDispatch initOneScore [] ['R', '5', '\x7b'] = some [⟨1, 0, 0⟩] ∧
    (handleAltSep ({ barPos := 16 } : NMState) [⟨2, 4, 0⟩]).barPos = 4 ∧
    (handleCloseBrace ({ barPos := 16 } : NMState) [⟨1, 0, 1⟩]).map
      (fun x => (x.1.barPos, x.2)) = some (32, ([] : List RepeatFrame)) ∧
    (handleCloseBrace ({ barPos := 16 } : NMState) [⟨1, 0, 0⟩]).map
      (fun x => (x.1.barPos, x.2)) = some (16, ([] : List RepeatFrame)) := by
  refine ⟨by decide, ?_, ?_, ?_, ?_⟩
  · rw [claim_C2_amended.2.2.1 initOneScore [] ['R', '5', '\x7b'] (by decide)]
  · rw [claim_C2_amended.2.1 ({ barPos := 16 } : NMState) ⟨2, 4, 0⟩ [] rfl]
  · have h := claim_C2_amended.2.2.2.1 ({ barPos := 16 } : NMState) 0 1 []
      (by norm_num) le_rfl (by norm_num)
    rw [h]
    norm_num [pymod_small]
  · exact claim_C2_amended.2.2.2.2 ({ barPos := 16 } : NMState) []
      (by norm_num) (by norm_num) (by norm_num)

/-! ### Claim C1: exact bar accounting -/

lemma advanceBarPos_ok_true (bs bs1 : BarState) (d : ℚ)
    (h : advanceBarPos bs d = .ok (bs1, true)) :
    bs.barPos + d = (bs.barLength : ℚ) ∧ bs1.barLength = bs.barLength := by
  simp only [advanceBarPos] at h
  by_cases h1 : (bs.barLength : ℚ) < bs.barPos + d
  · rw [if_pos h1] at h
    exact absurd h (by simp)
  · rw [if_neg h1] at h
    by_cases h2 : bs.barPos + d = (bs.barLength : ℚ)
    · rw [if_pos h2] at h
      simp only [Except.ok.injEq, Prod.mk.injEq] at h
      exact ⟨h2, by rw [← h.1]⟩
    · rw [if_neg h2] at h
      simp only [Except.ok.injEq, Prod.mk.injEq] at h
      exact absurd h.2 (by simp)

lemma advanceBarPos_ok_false (bs bs1 : BarState) (d : ℚ)
    (h : advanceBarPos bs d = .ok (bs1, false)) :
    bs1.barPos = bs.barPos + d ∧ bs1.barLength = bs.barLength := by
  simp only [advanceBarPos] at h
  by_cases h1 : (bs.barLength : ℚ) < bs.barPos + d
  · rw [if_pos h1] at h
    exact absurd h (by simp)
  · rw [if_neg h1] at h
    by_cases h2 : bs.barPos + d = (bs.barLength : ℚ)
    · rw [if_pos h2] at h
      simp only [Except.ok.injEq, Prod.mk.injEq] at h
      exact absurd h.2 (by simp)
    · rw [if_neg h2] at h
      simp only [Except.ok.injEq, Prod.mk.injEq] at h
      exact ⟨by rw [← h.1], by rw [← h.1]⟩

lemma runBars_reset_end : ∀ (ds : List ℚ) (bs bs2 : BarState) (cs : List Bool),
    runBars bs ds = .ok (bs2, cs) →
    cs = List.replicate (ds.length - 1) false ++ [true] →
    bs.barPos + ds.sum = (bs.barLength : ℚ) := by
  intro ds
  induction ds with
  | nil =>
    intro bs bs2 cs h hc
    rw [runBars] at h
    simp only [Except.ok.injEq, Prod.mk.injEq] at h
    rw [← h.2] at hc
    simp at hc
  | cons d ds ih =>
    intro bs bs2 cs h hc
    rw [runBars] at h
    cases hadv : advanceBarPos bs d with
    | error e =>
      rw [hadv] at h
      simp at h
    | ok pr =>
      obtain ⟨bs1, c⟩ := pr
      rw [hadv] at h
      dsimp only at h
      cases hrun : runBars bs1 ds with
      | error e =>
        rw [hrun] at h
        simp at h
      | ok pr2 =>
        obtain ⟨bs3, cs2⟩ := pr2
        rw [hrun] at h
        dsimp only at h
        simp only [Except.ok.injEq, Prod.mk.injEq] at h
        cases ds with
        | nil =>
          rw [runBars] at hrun
          simp only [Except.ok.injEq, Prod.mk.injEq] at hrun
          rw [← h.2, ← hrun.2] at hc
          simp at hc
          rw [hc] at hadv
          have := advanceBarPos_ok_true bs bs1 d hadv
          simpa using this.1
        | cons e ds2 =>
          rw [← h.2] at hc
          have hlen : (e :: ds2).length - 1 + 1 = (e :: ds2).length := by simp
          rw [show (d :: e :: ds2).length - 1 = ((e :: ds2).length - 1) + 1 by simp] at hc
          rw [List.replicate_succ] at hc
          simp only [List.cons_append, List.cons.injEq] at hc
          rw [hc.1] at hadv
          have hstep := advanceBarPos_ok_false bs bs1 d hadv
          rw [h.1] at hrun
          have hrec := ih bs1 bs2 cs2 hrun hc.2
          rw [hstep.1, hstep.2] at hrec
          rw [List.sum_cons]
          linarith

lemma advanceBarPos_err_iff (bs : BarState) (d : ℚ) :
    isErr (advanceBarPos bs d) = true ↔ (bs.barLength : ℚ) < bs.barPos + d := by
  simp only [advanceBarPos]
  by_cases h1 : (bs.barLength : ℚ) < bs.barPos + d
  · rw [if_pos h1]
    simp [isErr, h1]
  · rw [if_neg h1]
    by_cases h2 : bs.barPos + d = (bs.barLength : ℚ)
    · rw [if_pos h2]
      simp [isErr, h1]
    · rw [if_neg h2]
      simp [isErr, h1]

/-- C1 (amended): the bar length set by a time signature `n/d` is
`⌊64n/d⌋` (which equals `64n/d` exactly whenever `d` divides `64n`, and
need not otherwise — not even for the power-of-two denominator 128, see
the counterexample); the duration sum between
two consecutive bar-reset events is exactly the bar length; a note whose
duration pushes the bar position strictly past the bar length is a fatal
bar-overflow error (and otherwise no error is raised); and an end-of-score
bar position different from the recorded anacrusis start position is fatal
unless the sloppy-bars relaxation is set. -/
theorem claim_C1_amended :
    (∀ (st : NMState) (num denom : ℕ),
       (setTime st num denom).barLength = 64 * num / denom) ∧
    (∀ (st : NMState) (num denom : ℕ), 0 < denom → denom ∣ 64 * num →
       (((setTime st num denom).barLength : ℚ)) = 64 * num / denom) ∧
    (∀ (ds : List ℚ) (bs bs2 : BarState) (cs : List Bool),
       runBars bs ds = .ok (bs2, cs) →
       cs = List.replicate (ds.length - 1) false ++ [true] →
       bs.barPos + ds.sum = (bs.barLength : ℚ)) ∧
    (∀ (bs : BarState) (d : ℚ),
       isErr (advanceBarPos bs d) = true ↔ (bs.barLength : ℚ) < bs.barPos + d) ∧
    (∀ st : NMState, st.barPos ≠ st.startBarPos → isErr (endScore false st) = true) ∧
    (∀ st : NMState, st.startBarPos ≠ 0 → st.barPos = 0 →
       endScore false st =
         .error "Score should end with a bar making up for the anacrusis bar") ∧
    (∀ (sloppy : Bool) (st : NMState), st.barPos = st.startBarPos →
       endScore sloppy st = .ok ()) ∧
    (∀ st : NMState, isErr (endScore true st) = false) := by
  refine ⟨fun _ _ _ => rfl, ?_, runBars_reset_end, advanceBarPos_err_iff, ?_, ?_, ?_, ?_⟩
  · intro st num denom hd hdvd
    have h0 : ((denom : ℚ)) ≠ 0 := by
      exact_mod_cast hd.ne'
    have hcast := Nat.cast_div hdvd h0 (α := ℚ)
    rw [show (setTime st num denom).barLength = 64 * num / denom from rfl, hcast]
    push_cast
    ring
  · intro st hne
    rw [endScore, if_neg hne, if_neg (by simp)]
    by_cases h3 : st.startBarPos ≠ 0 ∧ st.barPos = 0
    · rw [if_pos h3]
      rfl
    · rw [if_neg h3]
      rfl
  · intro st h1 h2
    have hne : st.barPos ≠ st.startBarPos := by
      rw [h2]
      exact fun h => h1 h.symm
    rw [endScore, if_neg hne, if_neg (by simp), if_pos ⟨h1, h2⟩]
  · intro sloppy st h
    rw [endScore, if_pos h]
  · intro st
    rw [endScore]
    by_cases h : st.barPos = st.startBarPos
    · rw [if_pos h]
      rfl
    · rw [if_neg h, if_pos rfl]
      rfl

/-- Counterexample for C1 as stated: the accepted time signature `1/3`
produces the integer bar length `int(64/3) = 21`, not the exact rational
`64/3` the claim asserts; the flooring is not confined to non-power-of-two
denominators either — the denominator alphabet also accepts `128`, and
`3/128` gives `int(64*3/128) = 1`, not `3/2`. -/
theorem claim_C1_counterexample :
    timeSigDenomAccepted "3" = true ∧
    (setTime initOneScore 1 3).barLength = 21 ∧
    (((setTime initOneScore 1 3).barLength : ℚ)) ≠ 64 * 1 / 3 ∧
    timeSigDenomAccepted "128" = true ∧
    (setTime initOneScore 3 128).barLength = 1 ∧
    (((setTime initOneScore 3 128).barLength : ℚ)) ≠ 64 * 3 / 128 := by
  refine ⟨by decide, by decide, ?_, by decide, by decide, ?_⟩
  · have h21 : (setTime initOneScore 1 3).barLength = 21 := by decide
    rw [h21]
    norm_num
  · have h1 : (setTime initOneScore 3 128).barLength = 1 := by decide
    rw [h1]
    norm_num

/-- Closed witness for C1 (amended) at concrete runs. -/
theorem claim_C1_witness :
    ((⟨64, 0, 1⟩ : BarState).barPos + [(16 : ℚ), 16, 16, 16].sum =
      ((⟨64, 0, 1⟩ : BarState).barLength : ℚ)) ∧
    isErr (advanceBarPos ⟨64, 60, 1⟩ 16) = true ∧
    isErr (endScore false ({ barPos := 8 } : NMState)) = true ∧
    (((setTime initOneScore 3 4).barLength : ℚ)) = 64 * 3 / 4 := by
  refine ⟨?_, ?_, ?_, ?_⟩
  · exact claim_C1_amended.2.2.1 [16, 16, 16, 16] ⟨64, 0, 1⟩ ⟨64, 0, 2⟩
      [false, false, false, true] (by norm_num [runBars, advanceBarPos]) (by rfl)
  · exact (claim_C1_amended.2.2.2.1 ⟨64, 60, 1⟩ 16).mpr (by norm_num)
  · exact claim_C1_amended.2.2.2.2.1 ({ barPos := 8 } : NMState) (by decide)
  · exact claim_C1_amended.2.1 initOneScore 3 4 (by norm_num) (by norm_num)

lemma tupletSpan_spec : ∀ (k i n : ℕ), n - i ≤ k → 0 < i →
    (n ≤ i → tupletSpan i n = i) ∧
    (i < n → n ≤ tupletSpan i n ∧ tupletSpan i n < 2 * n ∧
      ∃ t, tupletSpan i n = i * 2 ^ t) := by
  intro k
  induction k with
  | zero =>
    intro i n hk hi
    have hni : ¬ i < n := by omega
    rw [tupletSpan, dif_neg (by omega : ¬(0 < i ∧ i < n))]
    exact ⟨fun _ => rfl, fun h => absurd h hni⟩
  | succ k ih =>
    intro i n hk hi
    by_cases h : 0 < i ∧ i < n
    · rw [tupletSpan, dif_pos h]
      have h2 := ih (2 * i) n (by omega) (by omega)
      constructor
      · intro hle
        exact absurd h.2 (by omega)
      · intro _
        by_cases h2n : 2 * i < n
        · obtain ⟨hge, hlt, t, ht⟩ := h2.2 h2n
          exact ⟨hge, hlt, t + 1, by rw [ht]; ring⟩
        · rw [h2.1 (by omega)]
          exact ⟨by omega, by omega, 1, by ring⟩
    · rw [tupletSpan, dif_neg h]
      exact ⟨fun _ => rfl, fun hlt => absurd ⟨hi, hlt⟩ h⟩

lemma tupletSpan_two_isLeast (n : ℕ) (hn : 1 ≤ n) :
    IsLeast {m | 2 ≤ m ∧ (∃ k, m = 2 ^ k) ∧ n ≤ m} (tupletSpan 2 n) := by
  have hs := tupletSpan_spec n 2 n (by omega) (by omega)
  by_cases h : 2 < n
  · obtain ⟨hge, hlt, t, ht⟩ := hs.2 h
    have h1 : tupletSpan 2 n = 2 ^ (t + 1) := by
      rw [ht]
      ring
    constructor
    · exact ⟨by omega, ⟨t + 1, h1⟩, hge⟩
    · rintro m ⟨hm2, ⟨k, rfl⟩, hmn⟩
      have h2 : (2 : ℕ) ^ (t + 1) < 2 ^ (k + 1) := by
        rw [← h1, pow_succ]
        calc tupletSpan 2 n < 2 * n := hlt
          _ ≤ 2 * 2 ^ k := by omega
          _ = 2 ^ k * 2 := by ring
      have h3 : t + 1 ≤ k := by
        have := (Nat.pow_lt_pow_iff_right (by omega : 1 < 2)).mp h2
        omega
      rw [h1]
      exact Nat.pow_le_pow_right (by omega) h3
  · have hspan : tupletSpan 2 n = 2 := hs.1 (by omega)
    constructor
    · rw [hspan]
      exact ⟨le_rfl, ⟨1, rfl⟩, by omega⟩
    · rintro m ⟨hm2, _, _⟩
      rw [hspan]
      exact hm2

/-- C3: for a tuplet word `N[` with `N ≥ 1` the emitted ratio is
`(num, N)` where `num` is derived from the smallest power of two `p ≥ N`
(search started at 2): `num = 3N/2` when `p = N` and `num = p/2` otherwise;
all durations inside the bracket are scaled by the current ratio, and `]`
resets the ratio to 1:1. -/
theorem claim_C3 (n : ℕ) (hn : 1 ≤ n) :
    (tupletStart n).2 = n ∧
    IsLeast {m | 2 ≤ m ∧ (∃ k, m = 2 ^ k) ∧ n ≤ m} (tupletSpan 2 n) ∧
    (tupletSpan 2 n = n → ((tupletStart n).1 : ℚ) = 3 * n / 2) ∧
    (tupletSpan 2 n ≠ n → ((tupletStart n).1 : ℚ) = (tupletSpan 2 n : ℚ) / 2) ∧
    (∀ st : NMState, (applyTupletStart st n).tuplet = tupletStart n ∧
      (applyTupletEnd st).tuplet = (1, 1)) ∧
    (∀ (nBeams dots : ℕ) (tup : ℕ × ℕ), tup.2 ≠ 0 →
      durationOf nBeams dots tup = durationOf nBeams dots (1, 1) * tup.1 / tup.2) := by
  have hleast := tupletSpan_two_isLeast n hn
  obtain ⟨hs2, ⟨k, hk⟩, hsn⟩ := hleast.1
  have hk1 : 1 ≤ k := by
    by_contra hk0
    interval_cases k <;> omega
  refine ⟨rfl, hleast, ?_, ?_, fun st => ⟨rfl, rfl⟩, ?_⟩
  · intro heq
    have hdvd : 2 ∣ n := by
      rw [← heq, hk]
      exact dvd_pow_self 2 (by omega)
    obtain ⟨m, rfl⟩ := hdvd
    have : (tupletStart (2 * m)).1 = 3 * m := by
      simp only [tupletStart, if_pos heq]
      omega
    rw [this]
    push_cast
    ring
  · intro hne
    have hdvd : 2 ∣ tupletSpan 2 n := by
      rw [hk]
      exact dvd_pow_self 2 (by omega)
    obtain ⟨m, hm⟩ := hdvd
    have : (tupletStart n).1 = m := by
      simp only [tupletStart, if_neg hne]
      omega
    rw [this, hm]
    push_cast
    ring
  · intro nBeams dots tup ht
    have htq : ((tup.2 : ℚ)) ≠ 0 := by exact_mod_cast ht
    have h11 : durationOf nBeams dots (1, 1) =
        dotLoop dots (beamLoop nBeams) (beamLoop nBeams) := by
      simp [durationOf]
    rw [h11]
    simp only [durationOf]
    by_cases h : tup.1 = tup.2
    · rw [if_pos h, h, mul_div_cancel_right₀ _ htq]
    · rw [if_neg h]

/-- Closed witness for C3 at the triplet word `3[`. -/
theorem claim_C3_witness :
    (tupletStart 3).2 = 3 ∧ ((tupletStart 3).1 : ℚ) = (tupletSpan 2 3 : ℚ) / 2 := by
  have h := claim_C3 3 (by norm_num)
  have hspan : tupletSpan 2 3 = 4 := by
    rw [tupletSpan, dif_pos (by norm_num)]
    rw [tupletSpan, dif_neg (by norm_num)]
  exact ⟨h.1, h.2.2.2.1 (by omega)⟩

/-- Closed witness for C4: each validation rejects a concrete bad input. -/
theorem claim_C4_witness :
    validate_figures ['0', '1'] [] = .error "Can't have rest in chord:" ∧
    isErr (validate_figures ['-', '1'] []) = true ∧
    isErr (validate_figures ['1'] ["q"]) = true ∧
    isErr (resolveOctaves ["'''"] "") = true :=
  ⟨claim_C4.1 ['0', '1'] [] (by decide) (by decide),
   claim_C4.2.1 ['-', '1'] [] (by decide) (by decide),
   claim_C4.2.2.1 ['1'] ["q"] "q" (by decide) (by decide),
   claim_C4.2.2.2 ["'''"] "" "'''" (by decide) (by decide)⟩

/-! ### Claims C8 and C5: the `toMarkup` state step -/

lemma advanceBarPos_ok_false_ne (bs bs1 : BarState) (d : ℚ)
    (h : advanceBarPos bs d = .ok (bs1, false)) :
    bs.barPos + d ≠ (bs.barLength : ℚ) := by
  simp only [advanceBarPos] at h
  by_cases h1 : (bs.barLength : ℚ) < bs.barPos + d
  · rw [if_pos h1] at h
    exact absurd h (by simp)
  · rw [if_neg h1] at h
    by_cases h2 : bs.barPos + d = (bs.barLength : ℚ)
    · rw [if_pos h2] at h
      simp only [Except.ok.injEq, Prod.mk.injEq] at h
      exact absurd h.2 (by simp)
    · rw [if_neg h2] at h
      exact h2

lemma toMarkupStep_ok (st : NMState) (figures : List Char) (oct acc : String)
    (nBeamsOpt : Option ℕ) (dots : ℕ) (irh : Bool) (st2 : NMState) (flag : Bool)
    (h : toMarkupStep st figures oct acc nBeamsOpt dots irh = .ok (st2, flag)) :
    ∃ bs completed,
      advanceBarPos ⟨st.barLength, st.barPos, st.barNo⟩
        (durationOf (resolvedBeams st nBeamsOpt) dots st.tuplet) = .ok (bs, completed) ∧
      st2 = { st with
              barPos := bs.barPos
              barNo := bs.barNo
              current_accidentals := (if completed then [] else
                (accLoop oct acc figures (false, ensureKey st.current_accidentals oct)).2)
              inBeamGroup := beamBeatClose
                (pymod (st.barPos + durationOf (resolvedBeams st nBeamsOpt) dots st.tuplet)
                  st.beatLength = 0) irh
                (beamOpen (resolvedBeams st nBeamsOpt) irh
                  (beamClose0 (resolvedBeams st nBeamsOpt) st.inBeamGroup))
              lastNBeams := resolvedBeams st nBeamsOpt } ∧
      flag = (accLoop oct acc figures (false, ensureKey st.current_accidentals oct)).1 := by
  simp only [toMarkupStep] at h
  cases hadv : advanceBarPos ⟨st.barLength, st.barPos, st.barNo⟩
      (durationOf (resolvedBeams st nBeamsOpt) dots st.tuplet) with
  | error e =>
    rw [hadv] at h
    exact absurd h (by simp)
  | ok pr =>
    obtain ⟨bs, completed⟩ := pr
    rw [hadv] at h
    dsimp only at h
    simp only [Except.ok.injEq, Prod.mk.injEq] at h
    exact ⟨bs, completed, rfl, h.1.symm, h.2.symm⟩

lemma beamBeatClose_off (atBeat : Prop) [Decidable atBeat] (irh : Bool) (b : BeamSt)
    (h : atBeat) : beamBeatClose atBeat irh b = .off := by
  unfold beamBeatClose
  by_cases hb : b = .off
  · subst hb
    rw [if_neg (by simp), if_neg (by simp)]
  · rw [if_pos ⟨h, hb⟩]

/-- C8: in notation mode, whenever after adding a note's duration the bar
position becomes an exact multiple of the beat length, the emitted note
leaves the state with no open beam group; hence an open beam group never
survives a beat boundary. -/
theorem claim_C8 (st : NMState) (figures : List Char) (oct acc : String)
    (nBeamsOpt : Option ℕ) (dots : ℕ) (irh : Bool) (st2 : NMState) (flag : Bool)
    (hok : toMarkupStep st figures oct acc nBeamsOpt dots irh = .ok (st2, flag)) :
    (pymod (st.barPos + durationOf (resolvedBeams st nBeamsOpt) dots st.tuplet)
        st.beatLength = 0 → st2.inBeamGroup = .off) ∧
    (st2.inBeamGroup ≠ .off →
      pymod (st.barPos + durationOf (resolvedBeams st nBeamsOpt) dots st.tuplet)
        st.beatLength ≠ 0) := by
  obtain ⟨bs, completed, hadv, hst2, hflag⟩ :=
    toMarkupStep_ok st figures oct acc nBeamsOpt dots irh st2 flag hok
  have hoff : pymod (st.barPos + durationOf (resolvedBeams st nBeamsOpt) dots st.tuplet)
      st.beatLength = 0 → st2.inBeamGroup = .off := by
    intro hbeat
    rw [hst2]
    exact beamBeatClose_off _ _ _ hbeat
  exact ⟨hoff, fun hne hbeat => hne (hoff hbeat)⟩

/-- Closed witness for C8: a quaver ending beat 1 of a 4/4 bar opens and
then closes its beam group. -/
theorem claim_C8_witness :
    toMarkupStep ({ barPos := 8 } : NMState) ['1'] "" "" (some 1) 0 false =
      .ok ({ barPos := 16, lastNBeams := 1,
             current_accidentals := [("", ["", "", "", "", "", "", ""])] }, false) ∧
    ({ barPos := 16, lastNBeams := 1,
       current_accidentals := [("", ["", "", "", "", "", "", ""])] } : NMState).inBeamGroup =
      .off := by
  have hok : toMarkupStep ({ barPos := 8 } : NMState) ['1'] "" "" (some 1) 0 false =
      .ok ({ barPos := 16, lastNBeams := 1,
             current_accidentals := [("", ["", "", "", "", "", "", ""])] }, false) := by
    norm_num [toMarkupStep, advanceBarPos, resolvedBeams, durationOf, beamLoop,
      dotLoop, ensureKey, memHasKey, memGet, memSet, accLoop, beamClose0, beamOpen,
      beamBeatClose, List.replicate, List.set, pymod_self]
  have h := claim_C8 ({ barPos := 8 } : NMState) ['1'] "" "" (some 1) 0 false
    ({ barPos := 16, lastNBeams := 1,
       current_accidentals := [("", ["", "", "", "", "", "", ""])] } : NMState) false hok
  refine ⟨hok, h.1 ?_⟩
  norm_num [resolvedBeams, durationOf, beamLoop, dotLoop, pymod_self]

/-! ### Claim C5: accidental memory lifecycle -/

lemma getD_set_self : ∀ (l : List String) (i : ℕ) (v : String), i < l.length →
    (l.set i v).getD i "" = v := by
  intro l
  induction l with
  | nil =>
    intro i v h
    simp at h
  | cons x rest ih =>
    intro i v h
    cases i with
    | zero => rfl
    | succ n =>
      simp only [List.set_cons_succ, List.getD_cons_succ]
      exact ih n v (by simpa using h)

lemma getD_replicate_blank : ∀ (n i : ℕ), (List.replicate n ("" : String)).getD i "" = "" := by
  intro n
  induction n with
  | zero =>
    intro i
    simp [List.getD]
  | succ n ih =>
    intro i
    cases i with
    | zero => rfl
    | succ j =>
      rw [List.replicate_succ, List.getD_cons_succ]
      exact ih j

lemma memWF_ensureKey (mem : AccMem) (oct : String) (h : MemWF mem) :
    MemWF (ensureKey mem oct) := by
  unfold ensureKey
  split_ifs
  · exact h
  · intro p hp
    rcases List.mem_append.mp hp with hp2 | hp2
    · exact h p hp2
    · simp only [List.mem_singleton] at hp2
      rw [hp2]
      simp

lemma memGet_memSet_self : ∀ (mem : AccMem) (oct : String) (idx : ℕ) (v : String),
    MemWF mem → idx < 7 → memGet (memSet mem oct idx v) oct idx = v := by
  intro mem
  induction mem with
  | nil =>
    intro oct idx v _ hidx
    rw [memSet, memGet, if_pos rfl]
    exact getD_set_self _ idx v (by simpa using hidx)
  | cons kl rest ih =>
    obtain ⟨k, l⟩ := kl
    intro oct idx v hwf hidx
    rw [memSet]
    by_cases hk : k = oct
    · rw [if_pos hk, memGet, if_pos hk]
      have hl : l.length = 7 := hwf (k, l) (List.mem_cons_self _ _)
      exact getD_set_self l idx v (by omega)
    · rw [if_neg hk, memGet, if_neg hk]
      exact ih oct idx v (fun q hq => hwf q (List.mem_cons_of_mem _ hq)) hidx

lemma memHasKey_memSet : ∀ (mem : AccMem) (oct : String) (idx : ℕ) (v : String),
    memHasKey (memSet mem oct idx v) oct = true := by
  intro mem
  induction mem with
  | nil =>
    intro oct idx v
    rw [memSet, memHasKey, if_pos rfl]
  | cons kl rest ih =>
    obtain ⟨k, l⟩ := kl
    intro oct idx v
    rw [memSet]
    by_cases hk : k = oct
    · rw [if_pos hk, memHasKey, if_pos hk]
    · rw [if_neg hk, memHasKey, if_neg hk]
      exact ih oct idx v

lemma ensureKey_of_hasKey (mem : AccMem) (oct : String)
    (h : memHasKey mem oct = true) : ensureKey mem oct = mem := by
  unfold ensureKey
  rw [if_pos h]

lemma accLoop_single (oct acc : String) (f : Char) (need : Bool) (mem : AccMem)
    (hf : '1' ≤ f ∧ f ≤ '7') :
    accLoop oct acc [f] (need, mem) =
      ((if acc = memGet mem oct (f.toNat - '1'.toNat) then need else true),
        memSet mem oct (f.toNat - '1'.toNat) acc) := by
  rw [accLoop, if_pos hf]
  rfl

lemma toMarkupStep_mem (st : NMState) (figures : List Char) (oct acc : String)
    (nBeamsOpt : Option ℕ) (dots : ℕ) (irh : Bool) (st2 : NMState) (flag : Bool)
    (h : toMarkupStep st figures oct acc nBeamsOpt dots irh = .ok (st2, flag)) :
    st2.current_accidentals =
      (if st.barPos + durationOf (resolvedBeams st nBeamsOpt) dots st.tuplet =
          (st.barLength : ℚ)
       then []
       else (accLoop oct acc figures (false, ensureKey st.current_accidentals oct)).2) := by
  obtain ⟨bs, completed, hadv, hst2, hflag⟩ :=
    toMarkupStep_ok st figures oct acc nBeamsOpt dots irh st2 flag h
  cases completed with
  | true =>
    have hcomp := advanceBarPos_ok_true _ _ _ hadv
    rw [hst2, if_pos hcomp.1]
    simp
  | false =>
    have hne := advanceBarPos_ok_false_ne _ _ _ hadv
    rw [hst2, if_neg hne]
    simp

lemma toMarkupStep_flag (st : NMState) (figures : List Char) (oct acc : String)
    (nBeamsOpt : Option ℕ) (dots : ℕ) (irh : Bool) (st2 : NMState) (flag : Bool)
    (h : toMarkupStep st figures oct acc nBeamsOpt dots irh = .ok (st2, flag)) :
    flag = (accLoop oct acc figures (false, ensureKey st.current_accidentals oct)).1 := by
  obtain ⟨bs, completed, hadv, hst2, hflag⟩ :=
    toMarkupStep_ok st figures oct acc nBeamsOpt dots irh st2 flag h
  exact hflag

/-- C5: the accidental memory starts empty, is cleared by a note step
exactly when that step completes a bar (and is otherwise the per-figure
update of the old memory); a repetition of the same accidental on the same
(octave, figure) within one bar is treated as already displayed; and after
a bar boundary the memory is empty, so a nonblank accidental counts as new
again. -/
theorem claim_C5 :
    initOneScore.current_accidentals = [] ∧
    (∀ (st : NMState) (figures : List Char) (oct acc : String) (nB : Option ℕ)
       (dots : ℕ) (irh : Bool) (st2 : NMState) (flag : Bool),
       toMarkupStep st figures oct acc nB dots irh = .ok (st2, flag) →
       st2.current_accidentals =
         (if st.barPos + durationOf (resolvedBeams st nB) dots st.tuplet =
             (st.barLength : ℚ)
          then []
          else (accLoop oct acc figures
            (false, ensureKey st.current_accidentals oct)).2)) ∧
    (∀ (st : NMState) (f : Char) (oct acc : String) (nB : Option ℕ) (dots : ℕ)
       (irh : Bool) (st1 : NMState) (flag1 : Bool) (nB2 : Option ℕ) (dots2 : ℕ)
       (irh2 : Bool) (st2 : NMState) (flag2 : Bool),
       MemWF st.current_accidentals →
       f ∈ ['1', '2', '3', '4', '5', '6', '7'] →
       toMarkupStep st [f] oct acc nB dots irh = .ok (st1, flag1) →
       st.barPos + durationOf (resolvedBeams st nB) dots st.tuplet ≠ (st.barLength : ℚ) →
       toMarkupStep st1 [f] oct acc nB2 dots2 irh2 = .ok (st2, flag2) →
       flag2 = false) ∧
    (∀ (st : NMState) (figures : List Char) (oct acc : String) (nB : Option ℕ)
       (dots : ℕ) (irh : Bool) (st1 : NMState) (flag1 : Bool) (f2 : Char)
       (oct2 acc2 : String) (nB2 : Option ℕ) (dots2 : ℕ) (irh2 : Bool)
       (st2 : NMState) (flag2 : Bool),
       toMarkupStep st figures oct acc nB dots irh = .ok (st1, flag1) →
       st.barPos + durationOf (resolvedBeams st nB) dots st.tuplet = (st.barLength : ℚ) →
       f2 ∈ ['1', '2', '3', '4', '5', '6', '7'] → acc2 ≠ "" →
       toMarkupStep st1 [f2] oct2 acc2 nB2 dots2 irh2 = .ok (st2, flag2) →
       st1.current_accidentals = [] ∧ flag2 = true) := by
  refine ⟨rfl, toMarkupStep_mem, ?_, ?_⟩
  · intro st f oct acc nB dots irh st1 flag1 nB2 dots2 irh2 st2 flag2
      hwf hf hok1 hne hok2
    have hf17 : '1' ≤ f ∧ f ≤ '7' := by
      fin_cases hf <;> exact ⟨by decide, by decide⟩
    have hidx : f.toNat - '1'.toNat < 7 := by
      fin_cases hf <;> decide
    have hmem1 := toMarkupStep_mem st [f] oct acc nB dots irh st1 flag1 hok1
    rw [if_neg hne, accLoop_single oct acc f false _ hf17] at hmem1
    have hflag2 := toMarkupStep_flag st1 [f] oct acc nB2 dots2 irh2 st2 flag2 hok2
    rw [accLoop_single oct acc f false _ hf17] at hflag2
    have hhas : memHasKey st1.current_accidentals oct = true := by
      rw [hmem1]
      exact memHasKey_memSet _ _ _ _
    rw [ensureKey_of_hasKey _ _ hhas, hmem1] at hflag2
    have hget : memGet
        (memSet (ensureKey st.current_accidentals oct) oct (f.toNat - '1'.toNat) acc)
        oct (f.toNat - '1'.toNat) = acc :=
      memGet_memSet_self _ _ _ _ (memWF_ensureKey _ _ hwf) hidx
    rw [hget] at hflag2
    rw [hflag2, if_pos rfl]
  · intro st figures oct acc nB dots irh st1 flag1 f2 oct2 acc2 nB2 dots2 irh2
      st2 flag2 hok1 hcomp hf2 hacc2 hok2
    have hf17 : '1' ≤ f2 ∧ f2 ≤ '7' := by
      fin_cases hf2 <;> exact ⟨by decide, by decide⟩
    have hmem1 := toMarkupStep_mem st figures oct acc nB dots irh st1 flag1 hok1
    rw [if_pos hcomp] at hmem1
    refine ⟨hmem1, ?_⟩
    have hflag2 := toMarkupStep_flag st1 [f2] oct2 acc2 nB2 dots2 irh2 st2 flag2 hok2
    rw [accLoop_single oct2 acc2 f2 false _ hf17, hmem1] at hflag2
    have hgetblank : memGet (ensureKey [] oct2) oct2 (f2.toNat - '1'.toNat) = "" := by
      unfold ensureKey
      rw [if_neg (by rw [memHasKey]; simp)]
      rw [List.nil_append, memGet, if_pos rfl]
      exact getD_replicate_blank 7 _
    rw [hgetblank] at hflag2
    rw [hflag2, if_neg fun hc => hacc2 hc]

/-- Closed witness for C5: within one 4/4 bar a repeated sharp on the same
figure is suppressed; after a bar completes the memory is empty and the
sharp is displayed again. -/
theorem claim_C5_witness :
    toMarkupStep initOneScore ['1'] "" "#" none 0 false =
      .ok ({ barPos := 16, current_accidentals := [("", ["#", "", "", "", "", "", ""])] }, true) ∧
    toMarkupStep ({ barPos := 16, current_accidentals := [("", ["#", "", "", "", "", "", ""])] } : NMState) ['1'] "" "#" none 0 false =
      .ok ({ barPos := 32, current_accidentals := [("", ["#", "", "", "", "", "", ""])] }, false) ∧
    (false : Bool) = false ∧
    toMarkupStep ({ barPos := 48 } : NMState) ['1'] "" "" none 0 false =
      .ok ({ barPos := 0, barNo := 2 }, false) ∧
    toMarkupStep ({ barPos := 0, barNo := 2 } : NMState) ['1'] "" "#" none 0 false =
      .ok ({ barPos := 16, barNo := 2, current_accidentals := [("", ["#", "", "", "", "", "", ""])] }, true) ∧
    (true : Bool) = true := by
  have hok1 : toMarkupStep initOneScore ['1'] "" "#" none 0 false =
      .ok ({ barPos := 16, current_accidentals := [("", ["#", "", "", "", "", "", ""])] }, true) := by
    norm_num [toMarkupStep, advanceBarPos, resolvedBeams, durationOf, beamLoop,
      dotLoop, ensureKey, memHasKey, memGet, memSet, accLoop, beamClose0, beamOpen,
      beamBeatClose, List.replicate, List.set, pymod_self, initOneScore] <;> decide
  have hok2 : toMarkupStep ({ barPos := 16, current_accidentals := [("", ["#", "", "", "", "", "", ""])] } : NMState) ['1'] "" "#" none 0 false =
      .ok ({ barPos := 32, current_accidentals := [("", ["#", "", "", "", "", "", ""])] }, false) := by
    norm_num [toMarkupStep, advanceBarPos, resolvedBeams, durationOf, beamLoop,
      dotLoop, ensureKey, memHasKey, memGet, memSet, accLoop, beamClose0, beamOpen,
      beamBeatClose, List.replicate, List.set, pymod_self, initOneScore] <;> decide
  have hok3 : toMarkupStep ({ barPos := 48 } : NMState) ['1'] "" "" none 0 false =
      .ok ({ barPos := 0, barNo := 2 }, false) := by
    norm_num [toMarkupStep, advanceBarPos, resolvedBeams, durationOf, beamLoop,
      dotLoop, ensureKey, memHasKey, memGet, memSet, accLoop, beamClose0, beamOpen,
      beamBeatClose, List.replicate, List.set, pymod_self, initOneScore] <;> decide
  have hok4 : toMarkupStep ({ barPos := 0, barNo := 2 } : NMState) ['1'] "" "#" none 0 false =
      .ok ({ barPos := 16, barNo := 2, current_accidentals := [("", ["#", "", "", "", "", "", ""])] }, true) := by
    norm_num [toMarkupStep, advanceBarPos, resolvedBeams, durationOf, beamLoop,
      dotLoop, ensureKey, memHasKey, memGet, memSet, accLoop, beamClose0, beamOpen,
      beamBeatClose, List.replicate, List.set, pymod_self, initOneScore] <;> decide
  refine ⟨hok1, hok2, ?_, hok3, hok4, ?_⟩
  · refine claim_C5.2.2.1 initOneScore '1' "" "#" none 0 false _ true none 0 false _ false
      (by intro p hp; simp [initOneScore] at hp) (by decide) hok1 ?_ hok2
    norm_num [resolvedBeams, durationOf, beamLoop, dotLoop, initOneScore]
  · refine (claim_C5.2.2.2 ({ barPos := 48 } : NMState) ['1'] "" "" none 0 false _ false
      '1' "" "#" none 0 false _ true hok3 ?_ (by decide) (by decide) hok4).2
    norm_num [resolvedBeams, durationOf, beamLoop, dotLoop]

/-! ### Claim C6: collapsing of tied-note chains -/

lemma durTotal_nil : durTotal [] = 0 := rfl

lemma durTotal_cons (t : LyTok) (l : List LyTok) :
    durTotal (t :: l) = durVal t + durTotal l := by
  simp [durTotal]

lemma durTotal_append (l1 l2 : List LyTok) :
    durTotal (l1 ++ l2) = durTotal l1 + durTotal l2 := by
  simp [durTotal]

lemma spanCmds_dur : ∀ toks : List LyTok,
    durTotal (spanCmds toks).1 = 0 ∧ durTotal (spanCmds toks).2.val = durTotal toks := by
  intro toks
  induction toks with
  | nil => simp [spanCmds, durTotal]
  | cons t rest ih =>
    cases t with
    | cmd s =>
      rcases hsp : spanCmds rest with ⟨cs, ⟨r, hlen⟩⟩
      rw [hsp] at ih
      simp only [spanCmds, hsp]
      rw [durTotal_cons, durTotal_cons]
      simp only [durVal] at *
      constructor
      · rw [ih.1]
        ring
      · rw [ih.2]
        ring
    | note nm len tr => simp [spanCmds, durTotal]
    | tie => simp [spanCmds, durTotal]
    | other s => simp [spanCmds, durTotal]

lemma matchTail_none_zero (n base : String) (toks : List LyTok) :
    matchTail n base 0 toks = none := by
  cases toks with
  | nil => rfl
  | cons t rest =>
    cases t with
    | note nm len tr =>
      cases rest with
      | nil => rfl
      | cons t2 rest2 => cases t2 <;> rfl
    | tie => rfl
    | cmd s => rfl
    | other s => rfl

lemma matchTail_dur : ∀ (k : ℕ) (n base : String) (toks : List LyTok)
    (res : { r : List LyTok // r.length ≤ toks.length }),
    matchTail n base k toks = some res →
    durTotal toks = k * lenVal base + durTotal res.val := by
  intro k
  induction k using Nat.strong_induction_on with
  | _ k ih =>
    intro n base toks res hm
    match k, toks with
    | 0, toks =>
      rw [matchTail_none_zero] at hm
      exact absurd hm (by simp)
    | 1, [] => exact absurd hm (by simp [matchTail])
    | 1, t :: rest =>
      cases t with
      | note n2 len2 tr =>
        rw [matchTail] at hm
        split_ifs at hm with h1 h2 h3
        simp only [Option.some.injEq] at hm
        rw [← hm]
        rw [durTotal_cons]
        simp only [durVal, h2]
        ring
      | tie => exact absurd hm (by simp [matchTail])
      | cmd s => exact absurd hm (by simp [matchTail])
      | other s => exact absurd hm (by simp [matchTail])
    | k2 + 2, [] => exact absurd hm (by simp [matchTail])
    | k2 + 2, t :: rest =>
      cases t with
      | note n2 len2 tr =>
        cases rest with
        | nil => exact absurd hm (by simp [matchTail])
        | cons t2 rest2 =>
          cases t2 with
          | tie =>
            rw [matchTail] at hm
            split_ifs at hm with h1 h2 h3
            rcases hrec : matchTail n base (k2 + 1) rest2 with _ | ⟨r2, hr2⟩
            · rw [hrec] at hm
              exact absurd hm (by simp)
            · rw [hrec] at hm
              simp only [Option.some.injEq] at hm
              have hd := ih (k2 + 1) (by omega) n base rest2 ⟨r2, hr2⟩ hrec
              rw [← hm]
              rw [durTotal_cons, durTotal_cons]
              simp only [durVal, h2]
              rw [hd]
              push_cast
              ring
          | note n3 len3 tr3 => exact absurd hm (by simp [matchTail])
          | cmd s => exact absurd hm (by simp [matchTail])
          | other s => exact absurd hm (by simp [matchTail])
      | tie => exact absurd hm (by simp [matchTail])
      | cmd s => exact absurd hm (by simp [matchTail])
      | other s => exact absurd hm (by simp [matchTail])

lemma tryMatch_dur (numNotes : ℕ) (base result : String) (toks : List LyTok)
    (rep : List LyTok) (res : { r : List LyTok // r.length < toks.length })
    (h1 : 1 ≤ numNotes) (hdur : lenVal result = numNotes * lenVal base)
    (hm : tryMatch numNotes base result toks = some (rep, res)) :
    durTotal toks = durTotal rep + durTotal res.val := by
  match toks with
  | [] => exact absurd hm (by simp [tryMatch])
  | t :: rest =>
    cases t with
    | note n len tr =>
      cases rest with
      | nil => exact absurd hm (by simp [tryMatch])
      | cons t2 rest0 =>
        cases t2 with
        | tie =>
          rw [tryMatch] at hm
          split_ifs at hm with hlen
          rcases hsp : spanCmds rest0 with ⟨cmds, ⟨r1, hr1⟩⟩
          rw [hsp] at hm
          dsimp only at hm
          rcases hmt : matchTail n base (numNotes - 1) r1 with _ | ⟨r2, hr2⟩
          · rw [hmt] at hm
            exact absurd hm (by simp)
          · rw [hmt] at hm
            simp only [Option.some.injEq, Prod.mk.injEq] at hm
            have hsd := spanCmds_dur rest0
            rw [hsp] at hsd
            have hmd := matchTail_dur (numNotes - 1) n base r1 ⟨r2, hr2⟩ hmt
            have hresv : res.val = r2 := by rw [← hm.2]
            rw [← hm.1, hresv]
            rw [durTotal_cons, durTotal_cons, durTotal_cons]
            simp only [durVal]
            rw [hlen, ← hsd.2, hmd, hsd.1, hdur, Nat.cast_sub h1]
            push_cast
            ring
        | note n3 len3 tr3 => exact absurd hm (by simp [tryMatch])
        | cmd s => exact absurd hm (by simp [tryMatch])
        | other s => exact absurd hm (by simp [tryMatch])
    | tie => exact absurd hm (by simp [tryMatch])
    | cmd s => exact absurd hm (by simp [tryMatch])
    | other s => exact absurd hm (by simp [tryMatch])

lemma collapsePat_dur (numNotes : ℕ) (base result : String)
    (h1 : 1 ≤ numNotes) (hdur : lenVal result = numNotes * lenVal base) :
    ∀ toks, durTotal (collapsePat numNotes base result toks) = durTotal toks := by
  have key : ∀ (n : ℕ) (toks : List LyTok), toks.length ≤ n →
      durTotal (collapsePat numNotes base result toks) = durTotal toks := by
    intro n
    induction n with
    | zero =>
      intro toks hlen
      have hnil : toks = [] := by
        cases toks with
        | nil => rfl
        | cons t ts => simp at hlen
      subst hnil
      simp [collapsePat]
    | succ n ihn =>
      intro toks hlen
      cases toks with
      | nil => simp [collapsePat]
      | cons t ts =>
        rcases hm : tryMatch numNotes base result (t :: ts) with _ | ⟨rep, ⟨rest, hlt⟩⟩
        · simp only [collapsePat, hm]
          rw [durTotal_cons, durTotal_cons]
          rw [ihn ts (by simp at hlen; omega)]
        · simp only [collapsePat, hm]
          rw [durTotal_append]
          rw [ihn rest (by simp at hlen hlt; omega)]
          exact (tryMatch_dur numNotes base result (t :: ts) rep ⟨rest, hlt⟩ h1 hdur hm).symm
  exact fun toks => key toks.length toks le_rfl

lemma lenVal_4 : lenVal "4" = 16 := by
  rw [lenVal, if_pos rfl]

lemma lenVal_4d : lenVal "4." = 24 := by
  rw [lenVal, if_neg (by decide), if_pos rfl]

lemma lenVal_2 : lenVal "2" = 32 := by
  rw [lenVal, if_neg (by decide), if_neg (by decide), if_pos rfl]

lemma lenVal_2d : lenVal "2." = 48 := by
  rw [lenVal, if_neg (by decide), if_neg (by decide), if_neg (by decide), if_pos rfl]

lemma lenVal_1 : lenVal "1" = 64 := by
  rw [lenVal, if_neg (by decide), if_neg (by decide), if_neg (by decide),
    if_neg (by decide), if_pos rfl]

lemma lenVal_1d : lenVal "1." = 96 := by
  rw [lenVal, if_neg (by decide), if_neg (by decide), if_neg (by decide),
    if_neg (by decide), if_neg (by decide), if_pos rfl]

lemma lenVal_facts :
    lenVal "1." = 4 * lenVal "4." ∧ lenVal "1" = 4 * lenVal "4" ∧
    lenVal "2." = 3 * lenVal "4" ∧ lenVal "2." = 2 * lenVal "4." ∧
    lenVal "2" = 2 * lenVal "4" := by
  rw [lenVal_4, lenVal_4d, lenVal_2, lenVal_2d, lenVal_1, lenVal_1d]
  norm_num

lemma collapseTiedNotes_dur (toks : List LyTok) :
    durTotal (collapseTiedNotes toks) = durTotal toks := by
  unfold collapseTiedNotes
  rw [collapsePat_dur 2 "4" "2" (by omega) (by rw [lenVal_facts.2.2.2.2]; push_cast; ring)]
  rw [collapsePat_dur 2 "4." "2." (by omega) (by rw [lenVal_facts.2.2.2.1]; push_cast; ring)]
  rw [collapsePat_dur 3 "4" "2." (by omega) (by rw [lenVal_facts.2.2.1]; push_cast; ring)]
  rw [collapsePat_dur 4 "4" "1" (by omega) (by rw [lenVal_facts.2.1]; push_cast; ring)]
  rw [collapsePat_dur 4 "4." "1." (by omega) (by rw [lenVal_facts.1]; push_cast; ring)]

/-- C6 (amended): the duration-collapsing pass, applied exactly to the MIDI
and Western-staff outputs, rewrites each of the five source patterns (4, 3
or 2 tied crotchets of equal pitch; 4 or 2 tied dotted crotchets) into the
single longer note of equivalent total duration, and always preserves the
total duration of the token stream.  (A chain of 3 tied dotted crotchets is
not rewritten to a single note; see the counterexample.) -/
theorem claim_C6_amended :
    (∀ (nm : String) (tr : Bool),
       collapseTiedNotes [LyTok.note nm "4." tr, .tie, .note nm "4." false, .tie,
         .note nm "4." false, .tie, .note nm "4." false] = [.note nm "1." tr]) ∧
    (∀ (nm : String) (tr : Bool),
       collapseTiedNotes [LyTok.note nm "4" tr, .tie, .note nm "4" false, .tie,
         .note nm "4" false, .tie, .note nm "4" false] = [.note nm "1" tr]) ∧
    (∀ (nm : String) (tr : Bool),
       collapseTiedNotes [LyTok.note nm "4" tr, .tie, .note nm "4" false, .tie,
         .note nm "4" false] = [.note nm "2." tr]) ∧
    (∀ (nm : String) (tr : Bool),
       collapseTiedNotes [LyTok.note nm "4." tr, .tie, .note nm "4." false] =
         [.note nm "2." tr]) ∧
    (∀ (nm : String) (tr : Bool),
       collapseTiedNotes [LyTok.note nm "4" tr, .tie, .note nm "4" false] =
         [.note nm "2" tr]) ∧
    (∀ toks, durTotal (collapseTiedNotes toks) = durTotal toks) ∧
    (lenVal "1." = 4 * lenVal "4." ∧ lenVal "1" = 4 * lenVal "4" ∧
      lenVal "2." = 3 * lenVal "4" ∧ lenVal "2." = 2 * lenVal "4." ∧
      lenVal "2" = 2 * lenVal "4") ∧
    (∀ (w : Bool) (toks : List LyTok),
       finalizeCollapse true w toks = collapseTiedNotes toks) ∧
    (∀ toks, finalizeCollapse false true toks = collapseTiedNotes toks) ∧
    (∀ toks, finalizeCollapse false false toks = toks) := by
  have ne1 : ("4" : String) ≠ "4." := by decide
  have ne2 : ("4." : String) ≠ "4" := by decide
  have ne3 : ("1." : String) ≠ "4" := by decide
  have ne4 : ("1." : String) ≠ "4." := by decide
  have ne5 : ("1" : String) ≠ "4" := by decide
  have ne6 : ("1" : String) ≠ "4." := by decide
  have ne7 : ("2." : String) ≠ "4" := by decide
  have ne8 : ("2." : String) ≠ "4." := by decide
  have ne9 : ("2" : String) ≠ "4" := by decide
  have ne10 : ("2" : String) ≠ "4." := by decide
  refine ⟨?_, ?_, ?_, ?_, ?_, collapseTiedNotes_dur, lenVal_facts, ?_, ?_, ?_⟩
  · intro nm tr
    simp [collapseTiedNotes, collapsePat, tryMatch, spanCmds, matchTail,
      ne1, ne2, ne3, ne4, ne5, ne6, ne7, ne8, ne9, ne10]
  · intro nm tr
    simp [collapseTiedNotes, collapsePat, tryMatch, spanCmds, matchTail,
      ne1, ne2, ne3, ne4, ne5, ne6, ne7, ne8, ne9, ne10]
  · intro nm tr
    simp [collapseTiedNotes, collapsePat, tryMatch, spanCmds, matchTail,
      ne1, ne2, ne3, ne4, ne5, ne6, ne7, ne8, ne9, ne10]
  · intro nm tr
    simp [collapseTiedNotes, collapsePat, tryMatch, spanCmds, matchTail,
      ne1, ne2, ne3, ne4, ne5, ne6, ne7, ne8, ne9, ne10]
  · intro nm tr
    simp [collapseTiedNotes, collapsePat, tryMatch, spanCmds, matchTail,
      ne1, ne2, ne3, ne4, ne5, ne6, ne7, ne8, ne9, ne10]
  · intro w toks
    simp [finalizeCollapse]
  · intro toks
    simp [finalizeCollapse]
  · intro toks
    simp [finalizeCollapse]

/-- Counterexample for C6 as stated: a chain of three tied dotted crotchets
of the same pitch is not rewritten into a single longer note; the pass
leaves a two-note partially collapsed chain (with a remaining tie). -/
theorem claim_C6_counterexample :
    collapseTiedNotes [LyTok.note "c" "4." false, .tie, .note "c" "4." false, .tie,
      .note "c" "4." false] =
      [LyTok.note "c" "2." false, .tie, .note "c" "4." false] ∧
    (collapseTiedNotes [LyTok.note "c" "4." false, .tie, .note "c" "4." false, .tie,
      .note "c" "4." false]).length = 3 := by
  have ne1 : ("4" : String) ≠ "4." := by decide
  have ne2 : ("4." : String) ≠ "4" := by decide
  have ne7 : ("2." : String) ≠ "4" := by decide
  have ne8 : ("2." : String) ≠ "4." := by decide
  have h : collapseTiedNotes [LyTok.note "c" "4." false, .tie, .note "c" "4." false, .tie,
      .note "c" "4." false] =
      [LyTok.note "c" "2." false, .tie, .note "c" "4." false] := by
    simp [collapseTiedNotes, collapsePat, tryMatch, spanCmds, matchTail,
      ne1, ne2, ne7, ne8]
  exact ⟨h, by rw [h]; rfl⟩

/-! ### Claim C7: tie/slur normalization -/

lemma eatAnnots_tie (l : List JTok) :
    eatAnnots (JTok.tie :: l) = ([], ⟨JTok.tie :: l, le_refl _⟩) := rfl

lemma eatDashAnnots_tie (l : List JTok) :
    eatDashAnnots (JTok.tie :: l) = ([], ⟨JTok.tie :: l, le_refl _⟩) := by
  simp [eatDashAnnots]

lemma chainIters_tieNotes : ∀ (ns : List String) (n : String),
    chainIters (JTok.tie :: JTok.note n :: tieNotes ns) =
      some (List.map JTok.note (n :: ns), ⟨[], Nat.zero_le _⟩) := by
  intro ns
  induction ns with
  | nil =>
    intro n
    show chainIters [JTok.tie, JTok.note n] = _
    simp [chainIters, eatAnnots, eatDashAnnots]
  | cons m ms ih =>
    intro n
    rw [show tieNotes (m :: ms) = JTok.tie :: JTok.note m :: tieNotes ms from rfl]
    rw [chainIters]
    rw [eatAnnots_tie]
    dsimp only
    rw [eatDashAnnots_tie]
    dsimp only
    rw [ih m]
    dsimp only
    simp

lemma protectTies_no_lpar : ∀ l : List JTok, JTok.lpar ∉ l → protectTies l = l := by
  intro l
  induction l with
  | nil =>
    intro _
    simp [protectTies]
  | cons t rest ih =>
    intro h
    have ht : t ≠ JTok.lpar := fun he => h (he ▸ List.mem_cons_self _ _)
    have hrest : JTok.lpar ∉ rest := fun hm => h (List.mem_cons_of_mem _ hm)
    cases t with
    | lpar => exact absurd rfl ht
    | note s => simp [protectTies, ih hrest]
    | annot s => simp [protectTies, ih hrest]
    | dash => simp [protectTies, ih hrest]
    | tie => simp [protectTies, ih hrest]
    | ptie => simp [protectTies, ih hrest]
    | timesig s => simp [protectTies, ih hrest]
    | rpar => simp [protectTies, ih hrest]
    | other s => simp [protectTies, ih hrest]

lemma takeDashGroup_not_dash (t : JTok) (ts : List JTok) (h : t ≠ JTok.dash) :
    takeDashGroup (t :: ts) = none := by
  cases t with
  | dash => exact absurd rfl h
  | note s => simp [takeDashGroup]
  | annot s => simp [takeDashGroup]
  | tie => simp [takeDashGroup]
  | ptie => simp [takeDashGroup]
  | timesig s => simp [takeDashGroup]
  | lpar => simp [takeDashGroup]
  | rpar => simp [takeDashGroup]
  | other s => simp [takeDashGroup]

lemma mpbd_no_dash : ∀ l : List JTok, JTok.dash ∉ l → moveParenBeforeDashes l = l := by
  intro l
  induction l with
  | nil =>
    intro _
    simp [moveParenBeforeDashes]
  | cons t rest ih =>
    intro h
    have ht : t ≠ JTok.dash := fun he => h (he ▸ List.mem_cons_self _ _)
    have hrest : JTok.dash ∉ rest := fun hm => h (List.mem_cons_of_mem _ hm)
    rw [moveParenBeforeDashes]
    rw [takeDashGroup_not_dash t rest ht]
    rw [ih hrest]

lemma tryChain_chain (n0 n1 : String) (ns : List String) :
    tryChain (JTok.note n0 :: JTok.tie :: JTok.note n1 :: tieNotes ns) =
      some (JTok.note n0 :: JTok.lpar :: List.map JTok.note (n1 :: ns) ++ [JTok.rpar],
        ⟨[], by simp⟩) := by
  rw [tryChain]
  rw [eatAnnots_tie]
  dsimp only
  rw [eatDashAnnots_tie]
  dsimp only
  rw [chainIters_tieNotes ns n1]
  dsimp only
  have hnd : JTok.dash ∉
      (JTok.note n0 :: ([] : List JTok) ++ ([] : List JTok) ++
        JTok.lpar :: List.map JTok.note (n1 :: ns) ++ [JTok.rpar]) := by
    simp
  rw [mpbd_no_dash _ hnd]
  simp

lemma rewriteChains_chain (n0 n1 : String) (ns : List String) :
    rewriteChains (JTok.note n0 :: JTok.tie :: JTok.note n1 :: tieNotes ns) =
      JTok.note n0 :: JTok.lpar :: List.map JTok.note (n1 :: ns) ++ [JTok.rpar] := by
  rw [rewriteChains]
  rw [tryChain_chain n0 n1 ns]
  dsimp only
  simp [rewriteChains]

lemma eatAnnots_append : ∀ toks : List JTok,
    (eatAnnots toks).1 ++ (eatAnnots toks).2.val = toks := by
  intro toks
  induction toks with
  | nil => simp [eatAnnots]
  | cons t rest ih =>
    cases t with
    | annot s =>
      rcases hea : eatAnnots rest with ⟨as, ⟨r, hr⟩⟩
      rw [hea] at ih
      simp only [eatAnnots, hea]
      simpa using ih
    | note s => simp [eatAnnots]
    | dash => simp [eatAnnots]
    | tie => simp [eatAnnots]
    | ptie => simp [eatAnnots]
    | timesig s => simp [eatAnnots]
    | lpar => simp [eatAnnots]
    | rpar => simp [eatAnnots]
    | other s => simp [eatAnnots]

lemma takeDashGroup_append : ∀ (fuel : ℕ) (toks : List JTok), toks.length ≤ fuel →
    ∀ (g : List JTok) (res : { r : List JTok // r.length ≤ toks.length }),
    takeDashGroup toks = some (g, res) → g ++ res.val = toks := by
  intro fuel
  induction fuel with
  | zero =>
    intro toks hlen g res hm
    have : toks = [] := by
      cases toks with
      | nil => rfl
      | cons t ts => simp at hlen
    subst this
    exact absurd hm (by simp [takeDashGroup])
  | succ fuel ih =>
    intro toks hlen g res hm
    cases toks with
    | nil => exact absurd hm (by simp [takeDashGroup])
    | cons t ts =>
      cases t with
      | dash =>
        rw [takeDashGroup] at hm
        rcases hea : eatAnnots ts with ⟨as, ⟨r1, hr1⟩⟩
        rw [hea] at hm
        dsimp only at hm
        rcases htd : takeDashGroup r1 with _ | ⟨g2, ⟨r2, hr2⟩⟩
        · rw [htd] at hm
          simp only [Option.some.injEq, Prod.mk.injEq] at hm
          have hresv : res.val = r1 := by rw [← hm.2]
          rw [← hm.1, hresv]
          have := eatAnnots_append ts
          rw [hea] at this
          simpa using this
        · rw [htd] at hm
          simp only [Option.some.injEq, Prod.mk.injEq] at hm
          have hresv : res.val = r2 := by rw [← hm.2]
          have hg2 := ih r1 (by simp at hlen; omega) g2 ⟨r2, hr2⟩ htd
          rw [← hm.1, hresv]
          have hts := eatAnnots_append ts
          rw [hea] at hts
          simp only at hts hg2
          simp only [List.cons_append, List.append_assoc, hg2, hts]
      | note s => exact absurd hm (by rw [takeDashGroup_not_dash] <;> simp)
      | annot s => exact absurd hm (by rw [takeDashGroup_not_dash] <;> simp)
      | tie => exact absurd hm (by rw [takeDashGroup_not_dash] <;> simp)
      | ptie => exact absurd hm (by rw [takeDashGroup_not_dash] <;> simp)
      | timesig s => exact absurd hm (by rw [takeDashGroup_not_dash] <;> simp)
      | lpar => exact absurd hm (by rw [takeDashGroup_not_dash] <;> simp)
      | rpar => exact absurd hm (by rw [takeDashGroup_not_dash] <;> simp)
      | other s => exact absurd hm (by rw [takeDashGroup_not_dash] <;> simp)

lemma reformatSlurs_perm : ∀ toks : List JTok, (reformatSlurs toks).Perm toks := by
  have key : ∀ (n : ℕ) (toks : List JTok), toks.length ≤ n →
      (reformatSlurs toks).Perm toks := by
    intro n
    induction n with
    | zero =>
      intro toks hlen
      have : toks = [] := by
        cases toks with
        | nil => rfl
        | cons t ts => simp at hlen
      subst this
      simp [reformatSlurs]
    | succ n ihn =>
      intro toks hlen
      cases toks with
      | nil => simp [reformatSlurs]
      | cons p ts =>
        by_cases hp : p = JTok.lpar ∨ p = JTok.rpar
        · rcases htd : takeDashGroup ts with _ | ⟨g, ⟨rest, hr⟩⟩
          · simp only [reformatSlurs, if_pos hp, htd]
            exact (ihn ts (by simp at hlen; omega)).cons p
          · simp only [reformatSlurs, if_pos hp, htd]
            have hgr : g ++ rest = ts :=
              takeDashGroup_append ts.length ts le_rfl g ⟨rest, hr⟩ htd
            have hperm := ihn rest (by simp at hlen; have := hr; simp at this; omega)
            have h1 : (g ++ p :: reformatSlurs rest).Perm (g ++ p :: rest) :=
              List.Perm.append_left g (hperm.cons p)
            have h2 : (g ++ p :: rest).Perm (p :: (g ++ rest)) := List.perm_middle
            have h3 := h1.trans h2
            rw [hgr] at h3
            exact h3
        · simp only [reformatSlurs, if_neg hp]
          exact (ihn ts (by simp at hlen; omega)).cons p
  exact fun toks => key toks.length toks le_rfl

lemma eatAnnots_dash (l : List JTok) :
    eatAnnots (JTok.dash :: l) = ([], ⟨JTok.dash :: l, le_refl _⟩) := rfl

lemma eatDashAnnots_nil : eatDashAnnots ([] : List JTok) = ([], ⟨[], le_refl _⟩) := by
  simp [eatDashAnnots]

lemma eatDashAnnots_dash_nil :
    eatDashAnnots [JTok.dash] = ([JTok.dash], ⟨[], by simp⟩) := by
  rw [eatDashAnnots]
  rw [show eatAnnots ([] : List JTok) = ([], ⟨[], le_refl _⟩) from rfl]
  dsimp only
  rw [eatDashAnnots_nil]
  simp

lemma eatDashAnnots_dash_tie (l : List JTok) :
    eatDashAnnots (JTok.dash :: JTok.tie :: l) =
      ([JTok.dash], ⟨JTok.tie :: l, by simp⟩) := by
  rw [eatDashAnnots]
  rw [eatAnnots_tie]
  dsimp only
  rw [eatDashAnnots_tie]
  simp

lemma chainIters_tie_note (b : String) :
    chainIters [JTok.tie, JTok.note b] = some ([JTok.note b], ⟨[], Nat.zero_le _⟩) :=
  chainIters_tieNotes [] b

lemma chainIters_tie_note_dash (b : String) :
    chainIters [JTok.tie, JTok.note b, JTok.dash] =
      some ([JTok.note b, JTok.dash], ⟨[], by simp⟩) := by
  rw [chainIters]
  rw [eatAnnots_dash]
  dsimp only
  rw [eatDashAnnots_dash_nil]
  dsimp only
  simp [chainIters]

lemma ctts_dash_pair (a b : String) :
    convertTiesToSlurs [JTok.note a, .dash, .tie, .note b, .dash] =
      [JTok.note a, .lpar, .dash, .note b, .rpar, .dash] := by
  unfold convertTiesToSlurs
  rw [protectTies_no_lpar _ (by simp)]
  rw [rewriteChains]
  rw [tryChain]
  rw [eatAnnots_dash]
  dsimp only
  rw [eatDashAnnots_dash_tie]
  dsimp only
  rw [chainIters_tie_note_dash b]
  dsimp only
  simp [moveParenBeforeDashes, takeDashGroup, eatAnnots, rewriteChains]

lemma ctts_counterex_pair (a b : String) :
    convertTiesToSlurs [JTok.note a, .dash, .tie, .note b] =
      [JTok.note a, .lpar, .dash, .note b, .rpar] := by
  unfold convertTiesToSlurs
  rw [protectTies_no_lpar _ (by simp)]
  rw [rewriteChains]
  rw [tryChain]
  rw [eatAnnots_dash]
  dsimp only
  rw [eatDashAnnots_dash_tie]
  dsimp only
  rw [chainIters_tie_note b]
  dsimp only
  simp [moveParenBeforeDashes, takeDashGroup, eatAnnots, rewriteChains]

lemma lpar_not_mem_tieNotes : ∀ ms : List String, JTok.lpar ∉ tieNotes ms := by
  intro ms
  induction ms with
  | nil => simp [tieNotes]
  | cons x xs ihx => simp [tieNotes, ihx]

lemma ctts_chain (n0 n1 : String) (ns : List String) :
    convertTiesToSlurs (JTok.note n0 :: tieNotes (n1 :: ns)) =
      JTok.note n0 :: JTok.lpar :: List.map JTok.note (n1 :: ns) ++ [JTok.rpar] := by
  unfold convertTiesToSlurs
  have hnl : JTok.lpar ∉ JTok.note n0 :: tieNotes (n1 :: ns) := by
    simp [lpar_not_mem_tieNotes]
  rw [protectTies_no_lpar _ hnl]
  rw [show tieNotes (n1 :: ns) = JTok.tie :: JTok.note n1 :: tieNotes ns from rfl]
  rw [rewriteChains_chain n0 n1 ns]
  simp [List.map_map, Function.comp]

/-- C7 (amended): ties become slurs only in notation (non-MIDI) mode and
slur reformatting only in MIDI mode; every tie chain among notes is
rewritten into slur-bracket form (first note, an opening parenthesis, the
remaining notes, a closing parenthesis); ties already inside an explicit
slur are protected and left unconverted; a slur parenthesis adjacent to a
duration-extension dash is moved to BEFORE the dash (not after it).  In
MIDI mode ties are never converted to slurs: `reformat_slurs` only
permutes the existing tokens (so every tie token is preserved), moving
slur parentheses to after duration-extension dashes. -/
theorem claim_C7_amended :
    (∀ toks : List JTok, preprocessScore false toks = convertTiesToSlurs toks ∧
       preprocessScore true toks = reformatSlurs toks) ∧
    (∀ (n0 n1 : String) (ns : List String),
       convertTiesToSlurs (JTok.note n0 :: tieNotes (n1 :: ns)) =
         JTok.note n0 :: JTok.lpar :: List.map JTok.note (n1 :: ns) ++ [JTok.rpar]) ∧
    (∀ a b : String,
       convertTiesToSlurs [JTok.lpar, .note a, .tie, .note b, .rpar] =
         [JTok.lpar, .note a, .tie, .note b, .rpar]) ∧
    (∀ a b : String,
       convertTiesToSlurs [JTok.note a, .dash, .tie, .note b, .dash] =
         [JTok.note a, .lpar, .dash, .note b, .rpar, .dash]) ∧
    (∀ toks : List JTok, (reformatSlurs toks).Perm toks) ∧
    (∀ a b : String,
       reformatSlurs [JTok.note a, .rpar, .dash, .tie, .note b] =
         [JTok.note a, .dash, .rpar, .tie, .note b]) := by
  refine ⟨?_, ctts_chain, ?_, ctts_dash_pair, reformatSlurs_perm, ?_⟩
  · intro toks
    exact ⟨by simp [preprocessScore], by simp [preprocessScore]⟩
  · intro a b
    simp [convertTiesToSlurs, protectTies, scanRegion, rewriteChains, tryChain,
      eatAnnots, eatDashAnnots, chainIters, moveParenBeforeDashes, takeDashGroup]
  · intro a b
    simp [reformatSlurs, takeDashGroup, eatAnnots]

/-- Counterexample for C7 as stated: in notation mode the slur parenthesis
is moved BEFORE the duration-extension dash (`1 ( - 2 )`), not after it
(`1 - ( 2 )` as the claim asserts for notation mode). -/
theorem claim_C7_counterexample :
    convertTiesToSlurs [JTok.note "1", .dash, .tie, .note "2"] =
      [JTok.note "1", .lpar, .dash, .note "2", .rpar] ∧
    [JTok.note "1", JTok.lpar, JTok.dash, JTok.note "2", JTok.rpar] ≠
      [JTok.note "1", JTok.dash, JTok.lpar, JTok.note "2", JTok.rpar] := by
  exact ⟨ctts_counterex_pair "1" "2", by decide⟩

end JianpuLy
